import Mathlib

/-!
Verification development for the CGHMatcher Generalized Hough Transform kernel.

Shallow embedding of the repository's core (src/ghbase.h, src/GradientMatcher.cpp
and the historical variants in src/unnamed/):

* `Pt` embeds `cv::Point`; `cmpCvPoint` is the comparison operator of
  `GradientMatcher.cpp` / `part_005`.
* `Image` embeds a single-channel code image (`cv::Mat` of `CV_8U` codes):
  dimensions plus a pixel accessor.  Only in-range pixels are ever read by the
  embedded operations, mirroring `rkeyimg.ptr<T_KEY>(i)[j]` accesses.
* `Frac` embeds the C++ `double` configuration values (scale factor, angle
  steps) as exact fractions with a positive denominator; `scaleTrunc` embeds
  `static_cast<int>(fac * x)` (truncation toward zero) via `Int.tdiv`.
* `ghbase.T_lookup_table` embeds `ghbase::T_lookup_table`: `elems` is the
  code-indexed array (its length is `elem_ct`), each element the `pt_votes`
  array of (point, votes) pairs (`T_pt_votes`).
* `ghbase.apply_ghough_transform` / `..._allpix` embed the two stride-1 voting
  loops of `src/ghbase.h`.  The accumulator is represented by its per-cell
  value: the value of cell `(y, x)` is the sum of `pt_votes[k].votes` over all
  loop iterations whose destination `(my, mx)` equals `(y, x)` — exactly the
  sequence of `*pix += pt_votes[k].votes` increments landing on that cell,
  starting from the `cv::Mat::zeros` initialization.
* `ghalgo.create_ghough_table` embeds `GradientMatcher::create_ghough_table`
  of `src/GradientMatcher.cpp` (the scale-factor variant): the nested
  `std::map<uint8_t, std::map<cv::Point, uint16_t, cmpCvPoint>>` grouping is
  embedded per code by folding the row-major stream of nonzero pixels through
  `innerInsert`, the ordered-insertion semantics of `std::map` (`uint16_t`
  vote counters wrap modulo 65536), and the dense array `elems` covers codes
  `0 .. max_code` where `max_code` is the maximal code seen in the data.
* `ghalgo.create_lookup_table` embeds the `create_lookup_table` of
  `src/unnamed/part_004` (vector-of-points variant, dense up to the `max_key`
  parameter, one vote per stored point).
* `ghalgo.apply_ghough_transform_stride` / `..._allpix_stride` embed the
  `ijstep`-strided transforms of `src/unnamed/part_004` (each stored point
  contributes one vote: `votes++`).
* `ghalgo.gradOrientationCode` embeds the quantization step of
  `create_masked_gradient_orientation_img`: the angle is given as the exact
  fraction `t = angle / 2π ∈ [0,1]`, so `convertTo(rmgo, CV_8U, angstep/2π, 1.0)`
  computes `saturate_cast<uint8_t>(round(angstep·t + 1))`; the subsequent
  `rmgo &= temp_mask` is the bitwise AND with the 0/255 magnitude mask.
  Rounding is modeled half-up (`cvRound` rounds half to even; the two agree
  except at exact midpoints, which none of the stated properties depend on).
-/

/-- Embeds `cv::Point` (integer image point / offset). -/
structure Pt where
  x : Int
  y : Int
deriving DecidableEq

/-- Embeds `cmpCvPoint` of `GradientMatcher.cpp` (and `part_005`):
`(a.x < b.x) || ((a.x == b.x) && (a.y < b.y))`. -/
def cmpCvPoint (a b : Pt) : Bool :=
  decide (a.x < b.x) || (decide (a.x = b.x) && decide (a.y < b.y))

/-- Embeds a single-channel code image: dimensions plus pixel accessor. -/
structure Image where
  rows : Nat
  cols : Nat
  pix : Int → Int → Nat

/-- Builds an `Image` from a row-major list of rows (out-of-range reads give 0;
the embedded code never reads out of range). -/
def mkImg (rs : List (List Nat)) : Image :=
  { rows := rs.length
    cols := (rs.headD []).length
    pix := fun i j => if 0 ≤ i ∧ 0 ≤ j then (rs.getD i.toNat []).getD j.toNat 0 else 0 }

/-- Fueled loop body for `scanIdxs` (fuel bounds the iteration count so the
definition is structural and kernel-computable). -/
def scanGo : Nat → Int → Int → Nat → List Int
  | 0, _, _, _ => []
  | fuel + 1, i, hi, step => if i < hi then i :: scanGo fuel (i + step) hi step else []

/-- The index sequence of the C++ loop `for (i = lo; i < hi; i += step)`.
For `step ≥ 1` the loop runs at most `(hi - lo)` times, so the fuel suffices. -/
def scanIdxs (lo hi : Int) (step : Nat) : List Int :=
  scanGo (hi - lo).toNat lo hi step

/-- Embeds a C++ `double` configuration value as an exact fraction with a
positive denominator. -/
structure Frac where
  num : Int
  den : Int
  den_pos : 0 < den

/-- The unit scale factor 1.0. -/
def fracOne : Frac := ⟨1, 1, by decide⟩

/-- The clamped scale factor of `create_ghough_table`:
`if (fac < 0.1) fac = 0.1; if (fac > 10.0) fac = 10.0;`
(`f < 1/10 ↔ 10·num < den` and `f > 10 ↔ num > 10·den` since `den > 0`). -/
def clampScale (f : Frac) : Frac :=
  if 10 * f.num < f.den then ⟨1, 10, by decide⟩
  else if f.num > 10 * f.den then ⟨10, 1, by decide⟩
  else f

/-- Embeds `static_cast<int>(fac * x)`: the rational `fac·x = (num·x)/den` is
truncated toward zero, which for a positive denominator is `Int.tdiv`. -/
def scaleTrunc (f : Frac) (x : Int) : Int :=
  Int.tdiv (f.num * x) f.den

namespace ghbase

/-- Embeds `ghbase::T_lookup_table`: `img_w × img_h` is `img_sz`, `elems` the
code-indexed array of `pt_votes` arrays (pairs of `cv::Point` and `uint16_t`
vote count); `elem_ct` is `elems.length`. -/
structure T_lookup_table where
  img_w : Nat
  img_h : Nat
  elems : List (List (Pt × Nat))

/-- The array access `rtable.elems[c]` (total embedding; `codesInRange`
expresses the in-bounds precondition the C++ access requires). -/
def entriesAt (t : T_lookup_table) (c : Nat) : List (Pt × Nat) :=
  t.elems.getD c []

/-- `total_votes` of the table: the sum of all stored vote weights. -/
def tableTotal (t : T_lookup_table) : Nat :=
  (t.elems.map (fun l => (l.map (fun e => e.2)).sum)).sum

/-- Row indices scanned by `apply_ghough_transform`:
`for (i = img_sz.height/2; i < rows - img_sz.height/2; i++)`. -/
def strictScanRows (img : Image) (t : T_lookup_table) : List Int :=
  scanIdxs ((t.img_h / 2 : Nat) : Int) ((img.rows : Int) - ((t.img_h / 2 : Nat) : Int)) 1

/-- Column indices scanned by `apply_ghough_transform`. -/
def strictScanCols (img : Image) (t : T_lookup_table) : List Int :=
  scanIdxs ((t.img_w / 2 : Nat) : Int) ((img.cols : Int) - ((t.img_w / 2 : Nat) : Int)) 1

/-- Votes added to accumulator cell `(y, x)` by the inner loop of
`apply_ghough_transform` at scan pixel `(i, j)`: every table entry of the
pixel's code whose destination `(my, mx) = (i + pt.y, j + pt.x)` is `(y, x)`
adds its `votes`. -/
def strictCellAdds (t : T_lookup_table) (img : Image) (i j y x : Int) : Nat :=
  (((entriesAt t (img.pix i j)).filter
      (fun e => decide (i + e.1.y = y) && decide (j + e.1.x = x))).map (fun e => e.2)).sum

/-- Embeds `ghbase::apply_ghough_transform` (strict border policy, stride 1):
the final value of accumulator cell `(y, x)`. -/
def apply_ghough_transform (img : Image) (t : T_lookup_table) (y x : Int) : Nat :=
  ((strictScanRows img t).map (fun i =>
    ((strictScanCols img t).map (fun j => strictCellAdds t img i j y x)).sum)).sum

/-- Row indices scanned by `apply_ghough_transform_allpix`:
`for (i = 1; i < rows - 1; i++)`. -/
def allpixScanRows (img : Image) : List Int :=
  scanIdxs 1 ((img.rows : Int) - 1) 1

/-- Column indices scanned by `apply_ghough_transform_allpix`. -/
def allpixScanCols (img : Image) : List Int :=
  scanIdxs 1 ((img.cols : Int) - 1) 1

/-- Votes added to cell `(y, x)` by `apply_ghough_transform_allpix` at scan
pixel `(i, j)`: as in the strict loop but each vote is range-checked
(`mx >= 0 && mx < cols && my >= 0 && my < rows`). -/
def allpixCellAdds (t : T_lookup_table) (img : Image) (i j y x : Int) : Nat :=
  (((entriesAt t (img.pix i j)).filter
      (fun e => decide (0 ≤ j + e.1.x) && decide (j + e.1.x < (img.cols : Int)) &&
                decide (0 ≤ i + e.1.y) && decide (i + e.1.y < (img.rows : Int)) &&
                decide (i + e.1.y = y) && decide (j + e.1.x = x))).map (fun e => e.2)).sum

/-- Embeds `ghbase::apply_ghough_transform_allpix` (all-pixel policy, stride 1):
the final value of accumulator cell `(y, x)`. -/
def apply_ghough_transform_allpix (img : Image) (t : T_lookup_table) (y x : Int) : Nat :=
  ((allpixScanRows img).map (fun i =>
    ((allpixScanCols img).map (fun j => allpixCellAdds t img i j y x)).sum)).sum

/-- Write-safety of the strict transform: every destination
`(my, mx) = (i + pt.y, j + pt.x)` computed inside the scan region lies inside
the accumulator (the C++ loop performs these writes unchecked). -/
def strictInBounds (img : Image) (t : T_lookup_table) : Bool :=
  (strictScanRows img t).all (fun i =>
    (strictScanCols img t).all (fun j =>
      (entriesAt t (img.pix i j)).all (fun e =>
        decide (0 ≤ j + e.1.x) && decide (j + e.1.x < (img.cols : Int)) &&
        decide (0 ≤ i + e.1.y) && decide (i + e.1.y < (img.rows : Int)))))

/-- Lookup-safety of the all-pixel transform: every scanned pixel's code is a
valid index into `elems` (the C++ `rtable.elems[uu]` access requires it). -/
def allpixCodesInRange (img : Image) (t : T_lookup_table) : Bool :=
  (allpixScanRows img).all (fun i =>
    (allpixScanCols img).all (fun j =>
      decide (img.pix i j < t.elems.length)))

end ghbase

namespace ghalgo

/-- One `temp_lookup_table[uu][offset_pt]++` step of the inner
`std::map<cv::Point, uint16_t, cmpCvPoint>`: ordered insertion that creates a
missing key with count 1 and increments an existing `uint16_t` counter
(wrapping modulo 65536). -/
def innerInsert : List (Pt × Nat) → Pt → List (Pt × Nat)
  | [], p => [(p, 1)]
  | (q, v) :: t, p =>
    if cmpCvPoint p q then (p, 1) :: (q, v) :: t
    else if p = q then (q, (v + 1) % 65536) :: t
    else (q, v) :: innerInsert t p

/-- The inner `std::map` built by inserting a stream of offset points in order. -/
def innerMapOf (s : List Pt) : List (Pt × Nat) :=
  s.foldl innerInsert []

/-- The row-major stream of nonzero-code pixels `(code, i, j)` of an encoded
image — the iteration order of the table-building scan. -/
def pixStream (E : Image) : List (Nat × Int × Int) :=
  (scanIdxs 0 (E.rows : Int) 1).flatMap (fun i =>
    (scanIdxs 0 (E.cols : Int) 1).flatMap (fun j =>
      if E.pix i j ≠ 0 then [(E.pix i j, i, j)] else []))

/-- The scaled centering offset stored by `create_ghough_table` for template
pixel `(i, j)`: `offset_pt = (col_offset - j, row_offset - i)` followed by
`static_cast<int>(fac * ·)` on each component. -/
def gmOffset (E : Image) (g : Frac) (i j : Int) : Pt :=
  ⟨scaleTrunc g (((E.cols / 2 : Nat) : Int) - j), scaleTrunc g (((E.rows / 2 : Nat) : Int) - i)⟩

/-- The stream of `(code, scaled offset)` pairs processed by
`create_ghough_table`, in row-major order. -/
def streamGM (E : Image) (g : Frac) : List (Nat × Pt) :=
  (pixStream E).map (fun e => (e.1, gmOffset E g e.2.1 e.2.2))

/-- `max_code` of `create_ghough_table`: running maximum of the codes seen. -/
def maxCodeOf (s : List (Nat × Pt)) : Nat :=
  s.foldl (fun m e => max m e.1) 0

/-- The offsets inserted under code `c`, in stream order (operations of the
outer `std::map` on distinct code keys are independent). -/
def codeOffsets (s : List (Nat × Pt)) (c : Nat) : List Pt :=
  (s.filter (fun e => e.1 == c)).map (fun e => e.2)

/-- Flattening of the nested-map grouping of a `(code, offset)` stream into the
dense code-indexed array of `ghbase::T_lookup_table`: one (possibly empty)
entry for every code `0 .. max_code`. -/
def tableOfStream (w h : Nat) (s : List (Nat × Pt)) : ghbase.T_lookup_table :=
  { img_w := w
    img_h := h
    elems := (List.range (maxCodeOf s + 1)).map (fun c => innerMapOf (codeOffsets s c)) }

/-- Embeds `GradientMatcher::create_ghough_table` of `src/GradientMatcher.cpp`:
clamp the scale factor to `[0.1, 10.0]`, group the nonzero pixels' scaled
offsets by code in `std::map`s, add blank entries for all codes up to the
data's `max_code`, and flatten into the dense table. -/
def create_ghough_table (E : Image) (scale : Frac) : ghbase.T_lookup_table :=
  tableOfStream E.cols E.rows (streamGM E (clampScale scale))

/-- The number of nonzero-code pixels of an encoded image. -/
def countNonzero (E : Image) : Nat :=
  (pixStream E).length

/-- Embeds `ghalgo::LookupTable` of `src/unnamed/part_004`: per-code vectors of
offset points (one vote each), plus `max_votes` and `img_sz`. -/
structure LookupTable where
  max_votes : Nat
  img_w : Nat
  img_h : Nat
  elems : List (List Pt)

/-- The unscaled centering offset of `create_lookup_table`:
`offset_pt = (col_offset - j, row_offset - i)`. -/
def cltOffset (E : Image) (i j : Int) : Pt :=
  ⟨((E.cols / 2 : Nat) : Int) - j, ((E.rows / 2 : Nat) : Int) - i⟩

/-- Embeds `create_lookup_table` of `src/unnamed/part_004`: the table is dense
over codes `0 .. max_key`; each nonzero pixel pushes its offset onto its
code's vector (`push_back`, row-major order) and bumps `max_votes`. -/
def create_lookup_table (E : Image) (max_key : Nat) : LookupTable :=
  { max_votes := (pixStream E).length
    img_w := E.cols
    img_h := E.rows
    elems := (List.range (max_key + 1)).map (fun c =>
      ((pixStream E).filter (fun e => e.1 == c)).map (fun e => cltOffset E e.2.1 e.2.2)) }

/-- `rtable.elems[c]` for the `part_004` table. -/
def entriesAtU (t : LookupTable) (c : Nat) : List Pt :=
  t.elems.getD c []

/-- Votes added to cell `(y, x)` by the strided strict loop of `part_004` at
scan pixel `(i, j)`: one vote (`votes++`) per stored point whose destination
is `(y, x)`. -/
def strictCellAddsU (t : LookupTable) (img : Image) (i j y x : Int) : Nat :=
  ((entriesAtU t (img.pix i j)).filter
      (fun p => decide (i + p.y = y) && decide (j + p.x = x))).length

/-- Embeds `apply_ghough_transform` of `src/unnamed/part_004` (strict policy,
sampling stride `ijstep`): the final value of accumulator cell `(y, x)`. -/
def apply_ghough_transform_stride (img : Image) (t : LookupTable) (ijstep : Nat)
    (y x : Int) : Nat :=
  ((scanIdxs ((t.img_h / 2 : Nat) : Int) ((img.rows : Int) - ((t.img_h / 2 : Nat) : Int)) ijstep).map
    (fun i =>
      ((scanIdxs ((t.img_w / 2 : Nat) : Int) ((img.cols : Int) - ((t.img_w / 2 : Nat) : Int)) ijstep).map
        (fun j => strictCellAddsU t img i j y x)).sum)).sum

/-- Votes added to cell `(y, x)` by the strided all-pixel loop of `part_004`
at scan pixel `(i, j)` (range-checked, one vote per point). -/
def allpixCellAddsU (t : LookupTable) (img : Image) (i j y x : Int) : Nat :=
  ((entriesAtU t (img.pix i j)).filter
      (fun p => decide (0 ≤ j + p.x) && decide (j + p.x < (img.cols : Int)) &&
                decide (0 ≤ i + p.y) && decide (i + p.y < (img.rows : Int)) &&
                decide (i + p.y = y) && decide (j + p.x = x))).length

/-- Embeds `apply_ghough_transform_allpix` of `src/unnamed/part_004`
(all-pixel policy, sampling stride `ijstep`). -/
def apply_ghough_transform_allpix_stride (img : Image) (t : LookupTable) (ijstep : Nat)
    (y x : Int) : Nat :=
  ((scanIdxs 1 ((img.rows : Int) - 1) ijstep).map (fun i =>
    ((scanIdxs 1 ((img.cols : Int) - 1) ijstep).map
      (fun j => allpixCellAddsU t img i j y x)).sum)).sum

/-- The accumulator's global maximum (what `minMaxLoc` reports) over an
`rows × cols` cell grid. -/
def gridMax (rows cols : Nat) (f : Int → Int → Nat) : Nat :=
  ((scanIdxs 0 (rows : Int) 1).map (fun y =>
    ((scanIdxs 0 (cols : Int) 1).map (fun x => f y x)).foldr max 0)).foldr max 0

/-- The clamp of the quantization-steps value in
`create_masked_gradient_orientation_img`:
`angstep = (angstep > ANG_STEP_MAX) ? ANG_STEP_MAX : angstep;`
`angstep = (angstep < ANG_STEP_MIN) ? ANG_STEP_MIN : angstep;`
with `ANG_STEP_MAX = 254`, `ANG_STEP_MIN = 4`. -/
def clampSteps (q : Frac) : Frac :=
  if q.num > 254 * q.den then ⟨254, 1, by decide⟩
  else if q.num < 4 * q.den then ⟨4, 1, by decide⟩
  else q

/-- Round-half-up of the nonnegative rational `num/den` (`den > 0`):
`⌊num/den + 1/2⌋ = (2·num + den) fdiv (2·den)`.  `cvRound` rounds half to
even; the two differ only at exact midpoints. -/
def roundHalfUp (num den : Int) : Int :=
  Int.fdiv (2 * num + den) (2 * den)

/-- `saturate_cast<uint8_t>`: clamp an integer to `[0, 255]`. -/
def satU8 (z : Int) : Nat :=
  (max 0 (min 255 z)).toNat

/-- The per-pixel quantization of `create_masked_gradient_orientation_img`.
`t = angle / 2π` is the pixel's gradient direction as an exact fraction of a
full turn, so `convertTo(rmgo, CV_8U, angstep / CV_2PI, 1.0)` stores
`saturate_cast<uint8_t>(round(angstep·t + 1))`; `rmgo &= temp_mask` then ANDs
with the pixel's magnitude mask value (255 above threshold, else 0). -/
def gradOrientationCode (q t : Frac) (mask : Bool) : Nat :=
  Nat.land
    (satU8 (roundHalfUp ((clampSteps q).num * t.num + (clampSteps q).den * t.den)
      ((clampSteps q).den * t.den)))
    (if mask then 255 else 0)

/-- All nonzero pixels of the image lie strictly inside the 1-pixel margin
(hypothesis language for the self-match property). -/
def borderFree (E : Image) : Bool :=
  (scanIdxs 0 (E.rows : Int) 1).all (fun i =>
    (scanIdxs 0 (E.cols : Int) 1).all (fun j =>
      (E.pix i j == 0) ||
        (decide (1 ≤ i) && decide (i < (E.rows : Int) - 1) &&
         decide (1 ≤ j) && decide (j < (E.cols : Int) - 1))))

/-- Offsets bounded by half the table's template extent (hypothesis language
for border-policy equivalence; holds for built tables at scale ≤ 1). -/
def offBounded (t : ghbase.T_lookup_table) : Prop :=
  ∀ l ∈ t.elems, ∀ e : Pt × Nat, e ∈ l →
    e.1.x.natAbs ≤ t.img_w / 2 ∧ e.1.y.natAbs ≤ t.img_h / 2

/-- Association lookup in an inner-map list (first entry with the given key),
the specification-side view of `std::map::operator[]` reads. -/
def lookupPt : List (Pt × Nat) → Pt → Option Nat
  | [], _ => none
  | (q, v) :: t, p => if p = q then some v else lookupPt t p

/-- The key list of an inner-map list. -/
def keysOf (l : List (Pt × Nat)) : List Pt :=
  l.map (fun e => e.1)

/-- Strict `cmpCvPoint` ordering of an inner-map list's keys — the iteration
order of `std::map<cv::Point, uint16_t, cmpCvPoint>`. -/
def innerSorted (l : List (Pt × Nat)) : Prop :=
  l.Pairwise (fun a b => cmpCvPoint a.1 b.1 = true)

end ghalgo

/-- A fraction `a / (b + 1)` (positive denominator by construction). -/
def mkFracP (a : Int) (b : Nat) : Frac :=
  ⟨a, (b : Int) + 1, by omega⟩

/-- 2×2 template with a single code-3 pixel at (1,1). -/
def exE2 : Image := mkImg [[0, 0], [0, 3]]

/-- 3×3 all-zero (degenerate) template. -/
def exE0 : Image := mkImg [[0, 0, 0], [0, 0, 0], [0, 0, 0]]

/-- 4×4 scene with a single code-1 pixel at (1,1). -/
def exS4 : Image := mkImg [[0, 0, 0, 0], [0, 1, 0, 0], [0, 0, 0, 0], [0, 0, 0, 0]]

/-- 10×10 template with a single code-1 pixel at (0,0). -/
def exE10 : Image :=
  { rows := 10, cols := 10, pix := fun i j => if i = 0 ∧ j = 0 then 1 else 0 }

/-- 10×10 template with a single code-1 pixel at (0,9). -/
def exE10b : Image :=
  { rows := 10, cols := 10, pix := fun i j => if i = 0 ∧ j = 9 then 1 else 0 }

/-- 20×20 scene with a single code-1 pixel at (1,1). -/
def exS20 : Image :=
  { rows := 20, cols := 20, pix := fun i j => if i = 1 ∧ j = 1 then 1 else 0 }

/-- 20×20 scene that is constant code 1. -/
def exS20c : Image :=
  { rows := 20, cols := 20, pix := fun _ _ => 1 }

/-- 20×20 scene with a single code-1 pixel at (5,5). -/
def exS20b : Image :=
  { rows := 20, cols := 20, pix := fun i j => if i = 5 ∧ j = 5 then 1 else 0 }

/-- 4×4 template with a single code-1 pixel at (0,0). -/
def exE4 : Image := mkImg [[1, 0, 0, 0], [0, 0, 0, 0], [0, 0, 0, 0], [0, 0, 0, 0]]

/-- 6×6 template with code 2 at (1,1) and code 3 at (2,3), interior only. -/
def exE6 : Image :=
  mkImg [[0, 0, 0, 0, 0, 0], [0, 2, 0, 0, 0, 0], [0, 0, 0, 3, 0, 0],
         [0, 0, 0, 0, 0, 0], [0, 0, 0, 0, 0, 0], [0, 0, 0, 0, 0, 0]]

/-- 12×12 scene with code 2 at (4,4) and code 3 at (5,6). -/
def exS12 : Image :=
  { rows := 12, cols := 12,
    pix := fun i j => if i = 4 ∧ j = 4 then 2 else if i = 5 ∧ j = 6 then 3 else 0 }

/-- 22×22 scene with a single code-1 pixel at (6,6). -/
def exS22 : Image :=
  { rows := 22, cols := 22, pix := fun i j => if i = 6 ∧ j = 6 then 1 else 0 }

/-! ### Lemmas about `scanIdxs` (the C++ `for` loop index sequences) -/

theorem scanGo_mem_bounds {fuel : Nat} {i hi a : Int} {step : Nat}
    (h : a ∈ scanGo fuel i hi step) : i ≤ a ∧ a < hi := by
  induction fuel generalizing i with
  | zero => simp [scanGo] at h
  | succ fuel ih =>
    simp only [scanGo] at h
    by_cases hlt : i < hi
    · simp only [if_pos hlt, List.mem_cons] at h
      rcases h with rfl | h
      · exact ⟨le_refl _, hlt⟩
      · rcases ih h with ⟨h1, h2⟩
        exact ⟨le_trans (by omega) h1, h2⟩
    · simp [if_neg hlt] at h

theorem mem_scanIdxs_bounds {lo hi a : Int} {step : Nat}
    (h : a ∈ scanIdxs lo hi step) : lo ≤ a ∧ a < hi :=
  scanGo_mem_bounds h

theorem scanGo_sorted (fuel : Nat) (i hi : Int) (step : Nat) (hstep : 0 < step) :
    List.Sorted (· < ·) (scanGo fuel i hi step) := by
  induction fuel generalizing i with
  | zero => simp [scanGo]
  | succ fuel ih =>
    simp only [scanGo]
    by_cases hlt : i < hi
    · simp only [if_pos hlt]
      refine List.sorted_cons.2 ⟨?_, ih (i + step)⟩
      intro b hb
      have := (scanGo_mem_bounds hb).1
      omega
    · simp [if_neg hlt]

theorem scanIdxs_sorted (lo hi : Int) (step : Nat) (hstep : 0 < step) :
    List.Sorted (· < ·) (scanIdxs lo hi step) :=
  scanGo_sorted _ lo hi step hstep

theorem scanIdxs_nodup (lo hi : Int) (step : Nat) (hstep : 0 < step) :
    (scanIdxs lo hi step).Nodup :=
  (scanIdxs_sorted lo hi step hstep).nodup

theorem scanGo_mem_of_one : ∀ (fuel : Nat) (i hi a : Int),
    (hi - i).toNat ≤ fuel → i ≤ a → a < hi → a ∈ scanGo fuel i hi 1 := by
  intro fuel
  induction fuel with
  | zero => intro i hi a h1 h2 h3; omega
  | succ fuel ih =>
    intro i hi a h1 h2 h3
    have hlt : i < hi := lt_of_le_of_lt h2 h3
    simp only [scanGo, if_pos hlt, List.mem_cons]
    rcases eq_or_lt_of_le h2 with rfl | hlt2
    · exact Or.inl rfl
    · exact Or.inr (ih (i + 1) hi a (by omega) (by omega) h3)

theorem mem_scanIdxs_one {lo hi a : Int} :
    a ∈ scanIdxs lo hi 1 ↔ lo ≤ a ∧ a < hi := by
  constructor
  · exact mem_scanIdxs_bounds
  · intro ⟨h1, h2⟩
    exact scanGo_mem_of_one _ _ _ _ (le_refl _) h1 h2

theorem toFinset_scanIdxs_one (lo hi : Int) :
    (scanIdxs lo hi 1).toFinset = Finset.Ico lo hi := by
  ext a
  simp [mem_scanIdxs_one, Finset.mem_Ico]

theorem sum_scanIdxs_one (lo hi : Int) (f : Int → Nat) :
    ((scanIdxs lo hi 1).map f).sum = ∑ a in Finset.Ico lo hi, f a := by
  rw [← List.sum_toFinset f (scanIdxs_nodup lo hi 1 (by decide)),
    toFinset_scanIdxs_one]

theorem sum_scanIdxs_step_le (lo hi : Int) (step : Nat) (hstep : 0 < step) (f : Int → Nat) :
    ((scanIdxs lo hi step).map f).sum ≤ ((scanIdxs lo hi 1).map f).sum := by
  rw [← List.sum_toFinset f (scanIdxs_nodup lo hi step hstep), sum_scanIdxs_one]
  refine Finset.sum_le_sum_of_subset ?_
  intro a ha
  rw [List.mem_toFinset] at ha
  have := mem_scanIdxs_bounds ha
  simp [Finset.mem_Ico]
  omega

/-! ### Generic list-sum helper lemmas -/

theorem sum_map_le_sum_map {α : Type} (l : List α) (f g : α → Nat)
    (h : ∀ a ∈ l, f a ≤ g a) : (l.map f).sum ≤ (l.map g).sum :=
  List.sum_le_sum h

theorem sum_filter_mono {α : Type} (l : List α) (p q : α → Bool) (f : α → Nat)
    (h : ∀ a ∈ l, p a = true → q a = true) :
    ((l.filter p).map f).sum ≤ ((l.filter q).map f).sum := by
  induction l with
  | nil => simp
  | cons a t ih =>
    have iht := ih (fun b hb hpb => h b (List.mem_cons_of_mem a hb) hpb)
    by_cases hp : p a = true
    · rw [List.filter_cons_of_pos hp, List.filter_cons_of_pos (h a (List.mem_cons_self a t) hp)]
      simp only [List.map_cons, List.sum_cons]
      omega
    · rw [List.filter_cons_of_neg (by simpa using hp)]
      by_cases hq : q a = true
      · rw [List.filter_cons_of_pos hq]
        simp only [List.map_cons, List.sum_cons]
        omega
      · rw [List.filter_cons_of_neg (by simpa using hq)]
        exact iht

/-! ### The `cmpCvPoint` strict order -/

theorem cmpCvPoint_iff (a b : Pt) :
    cmpCvPoint a b = true ↔ (a.x < b.x ∨ (a.x = b.x ∧ a.y < b.y)) := by
  simp [cmpCvPoint]

theorem cmpCvPoint_irrefl (a : Pt) : cmpCvPoint a a = false :=
  Bool.eq_false_iff.mpr (fun h => by rw [cmpCvPoint_iff] at h; omega)

theorem cmpCvPoint_asymm {a b : Pt} (h1 : cmpCvPoint a b = true)
    (h2 : cmpCvPoint b a = true) : False := by
  rw [cmpCvPoint_iff] at h1 h2
  omega

theorem cmpCvPoint_trans {a b c : Pt} (h1 : cmpCvPoint a b = true)
    (h2 : cmpCvPoint b c = true) : cmpCvPoint a c = true := by
  rw [cmpCvPoint_iff] at h1 h2 ⊢
  omega

theorem cmpCvPoint_trichotomy (a b : Pt) :
    cmpCvPoint a b = true ∨ a = b ∨ cmpCvPoint b a = true := by
  rw [cmpCvPoint_iff, cmpCvPoint_iff]
  rcases a with ⟨ax, ay⟩
  rcases b with ⟨bx, by'⟩
  simp only [Pt.mk.injEq]
  omega

theorem cmpCvPoint_ne {a b : Pt} (h : cmpCvPoint a b = true) : a ≠ b := by
  intro hh
  rw [hh, cmpCvPoint_irrefl] at h
  exact Bool.noConfusion h

namespace ghalgo

/-! ### The inner `std::map` (ordered association list) -/

theorem innerInsert_mem {l : List (Pt × Nat)} {p : Pt} {e : Pt × Nat}
    (h : e ∈ innerInsert l p) : e.1 = p ∨ e ∈ l := by
  induction l with
  | nil =>
    simp only [innerInsert, List.mem_singleton] at h
    left; rw [h]
  | cons a t ih =>
    rcases a with ⟨q, v⟩
    simp only [innerInsert] at h
    by_cases h1 : cmpCvPoint p q = true
    · rw [if_pos h1] at h
      rcases List.mem_cons.1 h with he | he
      · left; rw [he]
      · right; exact he
    · rw [if_neg h1] at h
      by_cases h2 : p = q
      · rw [if_pos h2] at h
        rcases List.mem_cons.1 h with he | he
        · left; rw [he, h2]
        · right; exact List.mem_cons_of_mem _ he
      · rw [if_neg h2] at h
        rcases List.mem_cons.1 h with he | he
        · right; rw [he]; exact List.mem_cons_self _ _
        · rcases ih he with h' | h'
          · left; exact h'
          · right; exact List.mem_cons_of_mem _ h'

theorem innerInsert_sorted {l : List (Pt × Nat)} (p : Pt) (h : innerSorted l) :
    innerSorted (innerInsert l p) := by
  induction l with
  | nil =>
    simp only [innerInsert, innerSorted]
    exact List.pairwise_singleton _ _
  | cons a t ih =>
    rcases a with ⟨q, v⟩
    rcases List.pairwise_cons.1 h with ⟨hq, ht⟩
    simp only [innerInsert]
    by_cases h1 : cmpCvPoint p q = true
    · rw [if_pos h1]
      refine List.pairwise_cons.2 ⟨?_, h⟩
      intro b hb
      rcases List.mem_cons.1 hb with he | he
      · rw [he]; exact h1
      · exact cmpCvPoint_trans h1 (hq b he)
    · rw [if_neg h1]
      by_cases h2 : p = q
      · rw [if_pos h2]
        exact List.pairwise_cons.2 ⟨hq, ht⟩
      · rw [if_neg h2]
        refine List.pairwise_cons.2 ⟨?_, ih ht⟩
        intro b hb
        rcases innerInsert_mem hb with hb' | hb'
        · rw [hb']
          rcases cmpCvPoint_trichotomy p q with h' | h' | h'
          · exact absurd h' h1
          · exact absurd h' h2
          · exact h'
        · exact hq b hb'

theorem lookupPt_none_of_lt {l : List (Pt × Nat)} {p : Pt}
    (h : ∀ e ∈ l, cmpCvPoint p e.1 = true) : lookupPt l p = none := by
  induction l with
  | nil => rfl
  | cons a t ih =>
    rcases a with ⟨q, v⟩
    have hpq : p ≠ q := cmpCvPoint_ne (h (q, v) (List.mem_cons_self _ _))
    simp only [lookupPt, if_neg hpq]
    exact ih (fun e he => h e (List.mem_cons_of_mem _ he))

theorem lookupPt_innerInsert_self {l : List (Pt × Nat)} (p : Pt) (h : innerSorted l) :
    lookupPt (innerInsert l p) p = some (((lookupPt l p).getD 0 + 1) % 65536) := by
  induction l with
  | nil => simp [innerInsert, lookupPt]
  | cons a t ih =>
    rcases a with ⟨q, v⟩
    rcases List.pairwise_cons.1 h with ⟨hq, ht⟩
    simp only [innerInsert]
    by_cases h1 : cmpCvPoint p q = true
    · rw [if_pos h1]
      have hnone : lookupPt ((q, v) :: t) p = none := by
        refine lookupPt_none_of_lt ?_
        intro e he
        rcases List.mem_cons.1 he with he' | he'
        · rw [he']; exact h1
        · exact cmpCvPoint_trans h1 (hq e he')
      rw [hnone]
      simp [lookupPt]
    · rw [if_neg h1]
      by_cases h2 : p = q
      · rw [if_pos h2]
        simp [lookupPt, h2]
      · rw [if_neg h2]
        simp only [lookupPt, if_neg h2]
        exact ih ht

theorem lookupPt_innerInsert_other {l : List (Pt × Nat)} {p r : Pt} (hner : r ≠ p) :
    lookupPt (innerInsert l p) r = lookupPt l r := by
  induction l with
  | nil => simp [innerInsert, lookupPt, if_neg hner]
  | cons a t ih =>
    rcases a with ⟨q, v⟩
    simp only [innerInsert]
    by_cases h1 : cmpCvPoint p q = true
    · rw [if_pos h1]
      simp only [lookupPt, if_neg hner]
    · rw [if_neg h1]
      by_cases h2 : p = q
      · rw [if_pos h2]
        by_cases h3 : r = q
        · exact absurd (h3.trans h2.symm) hner
        · simp [lookupPt, if_neg h3]
      · rw [if_neg h2]
        by_cases h3 : r = q
        · simp [lookupPt, if_pos h3]
        · simp only [lookupPt, if_neg h3]
          exact ih

theorem lookupPt_eq_none_iff {l : List (Pt × Nat)} {p : Pt} :
    lookupPt l p = none ↔ p ∉ keysOf l := by
  induction l with
  | nil => simp [lookupPt, keysOf]
  | cons a t ih =>
    rcases a with ⟨q, v⟩
    by_cases h : p = q
    · simp [lookupPt, if_pos h, keysOf, h]
    · simp only [lookupPt, if_neg h, keysOf, List.map_cons, List.mem_cons, ih, keysOf]
      constructor
      · intro hn hor
        rcases hor with he | he
        · exact h he
        · exact hn he
      · intro hn he
        exact hn (Or.inr he)

theorem innerMapOf_aux_sorted (s : List Pt) :
    ∀ l, innerSorted l → innerSorted (s.foldl innerInsert l) := by
  induction s with
  | nil => intro l hl; exact hl
  | cons a s' ih =>
    intro l hl
    exact ih (innerInsert l a) (innerInsert_sorted a hl)

theorem innerMapOf_sorted (s : List Pt) : innerSorted (innerMapOf s) :=
  innerMapOf_aux_sorted s [] List.Pairwise.nil

theorem innerMapOf_aux_lookup (s : List Pt) (p : Pt) :
    ∀ l, innerSorted l →
      lookupPt (s.foldl innerInsert l) p =
        (if s.count p = 0 then lookupPt l p
         else some (((lookupPt l p).getD 0 + s.count p) % 65536)) := by
  induction s with
  | nil => intro l _; simp
  | cons a s' ih =>
    intro l hl
    simp only [List.foldl_cons]
    have hsorted' : innerSorted (innerInsert l a) := innerInsert_sorted a hl
    by_cases hap : a = p
    · subst hap
      rw [ih (innerInsert l a) hsorted', lookupPt_innerInsert_self a hl]
      have hc : (a :: s').count a = s'.count a + 1 := by
        simp [List.count_cons]
      rw [hc]
      by_cases hz : s'.count a = 0
      · simp [hz, Nat.add_comm]
      · simp only [if_neg hz, if_neg (by omega : ¬ s'.count a + 1 = 0), Option.getD_some]
        congr 1
        omega
    · have hpa : p ≠ a := fun h => hap h.symm
      have hc : (a :: s').count p = s'.count p := by
        simp [List.count_cons, hpa]
      rw [ih (innerInsert l a) hsorted', lookupPt_innerInsert_other hpa, hc]

theorem innerMapOf_lookup (s : List Pt) (p : Pt) :
    lookupPt (innerMapOf s) p =
      (if s.count p = 0 then none else some (s.count p % 65536)) := by
  have := innerMapOf_aux_lookup s p [] List.Pairwise.nil
  simpa [innerMapOf, lookupPt] using this

theorem keysOf_nodup {l : List (Pt × Nat)} (h : innerSorted l) : (keysOf l).Nodup := by
  induction l with
  | nil => simp [keysOf]
  | cons a t ih =>
    rcases List.pairwise_cons.1 h with ⟨hq, ht⟩
    simp only [keysOf, List.map_cons, List.nodup_cons]
    refine ⟨?_, ih ht⟩
    intro hmem
    rcases List.mem_map.1 hmem with ⟨e, he, hkey⟩
    have := hq e he
    rw [← hkey] at this
    rw [cmpCvPoint_irrefl] at this
    exact Bool.noConfusion this

theorem lookupPt_of_mem {l : List (Pt × Nat)} {e : Pt × Nat}
    (h : innerSorted l) (hmem : e ∈ l) : lookupPt l e.1 = some e.2 := by
  induction l with
  | nil => simp at hmem
  | cons a t ih =>
    rcases a with ⟨q, v⟩
    rcases List.pairwise_cons.1 h with ⟨hq, ht⟩
    rcases List.mem_cons.1 hmem with he | he
    · rw [he]
      simp [lookupPt]
    · have hne : e.1 ≠ q := by
        intro hh
        have := hq e he
        rw [hh] at this
        exact cmpCvPoint_asymm this this
      simp only [lookupPt, if_neg hne]
      exact ih ht he

theorem mem_of_lookupPt {l : List (Pt × Nat)} {p : Pt} {v : Nat}
    (h : lookupPt l p = some v) : (p, v) ∈ l := by
  induction l with
  | nil => simp [lookupPt] at h
  | cons a t ih =>
    rcases a with ⟨q, w⟩
    by_cases hpq : p = q
    · simp only [lookupPt, if_pos hpq] at h
      rw [List.mem_cons]
      left
      rw [hpq, Option.some_inj.1 h]
    · simp only [lookupPt, if_neg hpq] at h
      exact List.mem_cons_of_mem _ (ih h)

theorem mem_innerMapOf_iff {s : List Pt} {e : Pt × Nat} :
    e ∈ innerMapOf s ↔ (e.1 ∈ s ∧ e.2 = s.count e.1 % 65536) := by
  constructor
  · intro h
    have hl := lookupPt_of_mem (innerMapOf_sorted s) h
    rw [innerMapOf_lookup] at hl
    by_cases hz : s.count e.1 = 0
    · rw [if_pos hz] at hl; exact Option.noConfusion hl
    · rw [if_neg hz] at hl
      refine ⟨List.count_pos_iff.1 (Nat.pos_of_ne_zero hz), ?_⟩
      exact (Option.some_inj.1 hl).symm
  · intro ⟨hmem, hval⟩
    have hz : s.count e.1 ≠ 0 := Nat.pos_iff_ne_zero.1 (List.count_pos_iff.2 hmem)
    have hl : lookupPt (innerMapOf s) e.1 = some (s.count e.1 % 65536) := by
      rw [innerMapOf_lookup, if_neg hz]
    have := mem_of_lookupPt hl
    rcases e with ⟨p, v⟩
    simp only at hval
    rw [hval]
    exact this

theorem innerSorted_ext {l l' : List (Pt × Nat)} (hl : innerSorted l) (hl' : innerSorted l')
    (h : ∀ p, lookupPt l p = lookupPt l' p) : l = l' := by
  induction l generalizing l' with
  | nil =>
    cases l' with
    | nil => rfl
    | cons a t =>
      rcases a with ⟨q, v⟩
      have := h q
      simp [lookupPt] at this
  | cons a t ih =>
    rcases a with ⟨q, v⟩
    cases l' with
    | nil =>
      have := h q
      simp [lookupPt] at this
    | cons a' t' =>
      rcases a' with ⟨q', v'⟩
      rcases List.pairwise_cons.1 hl with ⟨hq, ht⟩
      rcases List.pairwise_cons.1 hl' with ⟨hq', ht'⟩
      have hqq : q = q' := by
        by_contra hne
        -- q is in l', hence q' precedes q; symmetrically q precedes q'
        have h1 : lookupPt ((q', v') :: t') q = some v := by
          rw [← h q]; simp [lookupPt]
        have h2 : lookupPt ((q, v) :: t) q' = some v' := by
          rw [h q']; simp [lookupPt]
        have hq_in : (q, v) ∈ (q', v') :: t' := mem_of_lookupPt h1
        have hq'_in : (q', v') ∈ (q, v) :: t := mem_of_lookupPt h2
        have hc1 : cmpCvPoint q' q = true := by
          rcases List.mem_cons.1 hq_in with he | he
          · exact absurd (congrArg Prod.fst he) hne
          · exact hq' _ he
        have hc2 : cmpCvPoint q q' = true := by
          rcases List.mem_cons.1 hq'_in with he | he
          · exact absurd (congrArg Prod.fst he).symm hne
          · exact hq _ he
        exact cmpCvPoint_asymm hc1 hc2
      subst hqq
      have hvv : v = v' := by
        have := h q
        simp [lookupPt] at this
        exact this
      subst hvv
      congr 1
      refine ih ht ht' ?_
      intro p
      by_cases hpq : p = q
      · subst hpq
        have e1 : lookupPt t p = none :=
          lookupPt_eq_none_iff.2 (fun hmem => by
            rcases List.mem_map.1 hmem with ⟨e, he, hkey⟩
            have := hq e he
            rw [← hkey] at this
            rw [cmpCvPoint_irrefl] at this
            exact Bool.noConfusion this)
        have e2 : lookupPt t' p = none :=
          lookupPt_eq_none_iff.2 (fun hmem => by
            rcases List.mem_map.1 hmem with ⟨e, he, hkey⟩
            have := hq' e he
            rw [← hkey] at this
            rw [cmpCvPoint_irrefl] at this
            exact Bool.noConfusion this)
        rw [e1, e2]
      · have := h p
        simpa [lookupPt, if_neg hpq] using this

theorem innerMapOf_count_congr {s s' : List Pt}
    (h : ∀ p, s.count p = s'.count p) : innerMapOf s = innerMapOf s' := by
  refine innerSorted_ext (innerMapOf_sorted s) (innerMapOf_sorted s') ?_
  intro p
  rw [innerMapOf_lookup, innerMapOf_lookup, h p]

end ghalgo

/-! ### Truncation (`Int.tdiv`) and scale-factor facts -/

theorem neg_lt_tmod (a : Int) {b : Int} (hb : 0 < b) : -b < Int.tmod a b := by
  rcases Int.le_or_lt 0 a with ha | ha
  · have := Int.tmod_nonneg b ha
    omega
  · obtain ⟨n, rfl⟩ := Int.eq_ofNat_of_zero_le hb.le
    have hn : 0 < n := by exact_mod_cast hb
    rcases a with m | m
    · have hnn : (0 : Int) ≤ Int.ofNat m := Int.ofNat_le.2 (Nat.zero_le m)
      omega
    · have ht : Int.tmod (Int.negSucc m) ((n : Nat) : Int) = -(((m + 1) % n : Nat) : Int) := rfl
      have hr : (m + 1) % n < n := Nat.mod_lt _ hn
      rw [ht]
      have hco : (((m + 1) % n : Nat) : Int) < ((n : Nat) : Int) := by exact_mod_cast hr
      omega

theorem tdiv_sub_bounds (a b : Int) (hb : 0 < b) :
    b * Int.tdiv a b - b < a ∧ a < b * Int.tdiv a b + b := by
  have h1 := Int.tdiv_add_tmod a b
  have h2 := Int.tmod_lt_of_pos a hb
  have h3 := neg_lt_tmod a hb
  omega

theorem scaleTrunc_window {f : Frac} (hlo : f.den ≤ 10 * f.num) {a b : Int}
    (h : scaleTrunc f a = scaleTrunc f b) : (a - b).natAbs ≤ 19 := by
  have hden := f.den_pos
  have hnum : 0 < f.num := by omega
  have ha := tdiv_sub_bounds (f.num * a) f.den hden
  have hb' := tdiv_sub_bounds (f.num * b) f.den hden
  rw [show Int.tdiv (f.num * a) f.den = scaleTrunc f a from rfl, h] at ha
  rw [show Int.tdiv (f.num * b) f.den = scaleTrunc f b from rfl] at hb'
  -- both f.num * a and f.num * b lie in (d·k - d, d·k + d), so their difference
  -- is below 2·d ≤ 20·num in absolute value
  have hlt1 : f.num * (a - b) < f.num * 20 := by
    have he : f.num * (a - b) = f.num * a - f.num * b := by ring
    omega
  have hlt2 : f.num * (b - a) < f.num * 20 := by
    have he : f.num * (b - a) = f.num * b - f.num * a := by ring
    omega
  have hab : a - b < 20 := lt_of_mul_lt_mul_left hlt1 hnum.le
  have hba : b - a < 20 := lt_of_mul_lt_mul_left hlt2 hnum.le
  omega

theorem scaleTrunc_abs_le {f : Frac} (hnum : 0 < f.num) (hle : f.num ≤ f.den) (x : Int) :
    (scaleTrunc f x).natAbs ≤ x.natAbs := by
  have hden := f.den_pos
  unfold scaleTrunc
  rw [Int.natAbs_tdiv, Int.natAbs_mul]
  have h1 : f.num.natAbs ≤ f.den.natAbs := by omega
  calc Nat.div (f.num.natAbs * x.natAbs) f.den.natAbs
      ≤ Nat.div (f.den.natAbs * x.natAbs) f.den.natAbs :=
        Nat.div_le_div_right (Nat.mul_le_mul_right _ h1)
    _ = x.natAbs := Nat.mul_div_cancel_left _ (by omega)

theorem scaleTrunc_fracOne (x : Int) : scaleTrunc fracOne x = x := by
  show Int.tdiv (1 * x) 1 = x
  rw [one_mul, Int.tdiv_one]

theorem clampScale_den_le (f : Frac) : (clampScale f).den ≤ 10 * (clampScale f).num := by
  unfold clampScale
  by_cases h1 : 10 * f.num < f.den
  · rw [if_pos h1]; decide
  · rw [if_neg h1]
    by_cases h2 : f.num > 10 * f.den
    · rw [if_pos h2]; decide
    · rw [if_neg h2]; omega

theorem clampScale_num_le (f : Frac) : (clampScale f).num ≤ 10 * (clampScale f).den := by
  have hd := f.den_pos
  unfold clampScale
  by_cases h1 : 10 * f.num < f.den
  · rw [if_pos h1]; decide
  · rw [if_neg h1]
    by_cases h2 : f.num > 10 * f.den
    · rw [if_pos h2]; decide
    · rw [if_neg h2]; omega

theorem clampScale_num_pos (f : Frac) : 0 < (clampScale f).num := by
  have h1 := clampScale_den_le f
  have h2 := (clampScale f).den_pos
  omega

theorem clampScale_eq_self {f : Frac} (h1 : f.den ≤ 10 * f.num) (h2 : f.num ≤ f.den) :
    clampScale f = f := by
  have hd := f.den_pos
  unfold clampScale
  rw [if_neg (by omega), if_neg (by omega)]

theorem clampScale_fracOne : clampScale fracOne = fracOne := rfl

/-! ### Counting nonzero pixels and offset buckets in the build streams -/

theorem countP_flatMap {α β : Type} (l : List α) (f : α → List β) (p : β → Bool) :
    ((l.flatMap f).countP p) = (l.map (fun a => (f a).countP p)).sum := by
  induction l with
  | nil => rfl
  | cons a t ih => simp [List.flatMap_cons, List.countP_append, ih]

theorem sum_map_ite_count {α : Type} (l : List α) (q : α → Bool) (k : Nat) :
    (l.map (fun a => if q a = true then k else 0)).sum = k * l.countP q := by
  induction l with
  | nil => simp
  | cons a t ih =>
    by_cases h : q a = true
    · simp [h, ih, List.countP_cons, Nat.mul_add]
      omega
    · simp [h, ih, List.countP_cons]

theorem countP_window (n : Nat) (p : Int → Bool)
    (hwin : ∀ a b : Int, p a = true → p b = true → (a - b).natAbs ≤ 19) :
    (scanIdxs 0 (n : Int) 1).countP p ≤ 39 := by
  rw [List.countP_eq_length_filter]
  rcases hme : (scanIdxs 0 (n : Int) 1).filter p with _ | ⟨a0, l'⟩
  · simp [hme]
  · have hmem0 : a0 ∈ (scanIdxs 0 (n : Int) 1).filter p := by
      rw [hme]; exact List.mem_cons_self _ _
    have hnd : ((scanIdxs 0 (n : Int) 1).filter p).Nodup :=
      (scanIdxs_nodup 0 (n : Int) 1 (by decide)).filter p
    have hsub : ((scanIdxs 0 (n : Int) 1).filter p).toFinset ⊆
        Finset.Icc (a0 - 19) (a0 + 19) := by
      intro a ha
      rw [List.mem_toFinset] at ha
      have hpa := List.of_mem_filter ha
      have hpa0 := List.of_mem_filter hmem0
      have := hwin a a0 hpa hpa0
      rw [Finset.mem_Icc]
      omega
    have hcard := Finset.card_le_card hsub
    rw [List.toFinset_card_of_nodup hnd, Int.card_Icc, hme] at hcard
    have h39 : (a0 + 19 + 1 - (a0 - 19)).toNat = 39 := by omega
    rw [h39] at hcard
    exact hcard

namespace ghalgo

theorem countP_pixStream (E : Image) (q : Nat × Int × Int → Bool) :
    (pixStream E).countP q =
      ((scanIdxs 0 (E.rows : Int) 1).map (fun i =>
        ((scanIdxs 0 (E.cols : Int) 1).map (fun j =>
          if E.pix i j ≠ 0 ∧ q (E.pix i j, i, j) = true then 1 else 0)).sum)).sum := by
  unfold pixStream
  rw [countP_flatMap]
  congr 1
  refine List.map_congr_left ?_
  intro i _
  rw [countP_flatMap]
  congr 1
  refine List.map_congr_left ?_
  intro j _
  by_cases h : E.pix i j ≠ 0
  · rw [if_pos h]
    by_cases hq : q (E.pix i j, i, j) = true
    · simp [List.countP_cons, h, hq]
    · simp [List.countP_cons, h, hq]
  · rw [if_neg h]
    simp [h]

theorem count_codeOffsets_eq_countP (s : List (Nat × Pt)) (c : Nat) (p : Pt) :
    (codeOffsets s c).count p = s.countP (fun e => (e.2 == p) && (e.1 == c)) := by
  unfold codeOffsets
  rw [List.count_eq_countP, List.countP_map, List.countP_filter]
  rfl

theorem bucket_count_le (E : Image) (g : Frac) (hg : g.den ≤ 10 * g.num) (c : Nat) (p : Pt) :
    (codeOffsets (streamGM E g) c).count p ≤ 1521 := by
  rw [count_codeOffsets_eq_countP]
  unfold streamGM
  rw [List.countP_map]
  rw [countP_pixStream]
  -- bound every grid cell's indicator by the product of per-axis
  -- truncated-offset matches, then bound each axis by the 39-wide window
  have hxm := countP_window E.cols (fun j => scaleTrunc g (((E.cols / 2 : Nat) : Int) - j) == p.x)
    (by
      intro a b ha hb
      have ha' : scaleTrunc g (((E.cols / 2 : Nat) : Int) - a) = p.x := by
        simpa using ha
      have hb' : scaleTrunc g (((E.cols / 2 : Nat) : Int) - b) = p.x := by
        simpa using hb
      have := scaleTrunc_window hg (ha'.trans hb'.symm)
      have he : ((((E.cols / 2 : Nat) : Int) - a) - (((E.cols / 2 : Nat) : Int) - b)) = b - a := by
        ring
      rw [he] at this
      omega)
  have hym := countP_window E.rows (fun i => scaleTrunc g (((E.rows / 2 : Nat) : Int) - i) == p.y)
    (by
      intro a b ha hb
      have ha' : scaleTrunc g (((E.rows / 2 : Nat) : Int) - a) = p.y := by
        simpa using ha
      have hb' : scaleTrunc g (((E.rows / 2 : Nat) : Int) - b) = p.y := by
        simpa using hb
      have := scaleTrunc_window hg (ha'.trans hb'.symm)
      have he : ((((E.rows / 2 : Nat) : Int) - a) - (((E.rows / 2 : Nat) : Int) - b)) = b - a := by
        ring
      rw [he] at this
      omega)
  calc ((scanIdxs 0 (E.rows : Int) 1).map (fun i =>
        ((scanIdxs 0 (E.cols : Int) 1).map (fun j =>
          if E.pix i j ≠ 0 ∧
              ((fun e => (e.2 == p) && (e.1 == c)) ∘ fun e =>
                (e.1, gmOffset E g e.2.1 e.2.2)) (E.pix i j, i, j) = true then 1 else 0)).sum)).sum
      ≤ ((scanIdxs 0 (E.rows : Int) 1).map (fun i =>
          if (scaleTrunc g (((E.rows / 2 : Nat) : Int) - i) == p.y) = true then 39 else 0)).sum := by
        refine sum_map_le_sum_map _ _ _ ?_
        intro i _
        by_cases hy : (scaleTrunc g (((E.rows / 2 : Nat) : Int) - i) == p.y) = true
        · rw [if_pos hy]
          calc ((scanIdxs 0 (E.cols : Int) 1).map (fun j =>
                if E.pix i j ≠ 0 ∧
                    ((fun e => (e.2 == p) && (e.1 == c)) ∘ fun e =>
                      (e.1, gmOffset E g e.2.1 e.2.2)) (E.pix i j, i, j) = true then 1 else 0)).sum
              ≤ ((scanIdxs 0 (E.cols : Int) 1).map (fun j =>
                  if (scaleTrunc g (((E.cols / 2 : Nat) : Int) - j) == p.x) = true
                  then 1 else 0)).sum := by
                refine sum_map_le_sum_map _ _ _ ?_
                intro j _
                by_cases hc : E.pix i j ≠ 0 ∧
                    ((fun e => (e.2 == p) && (e.1 == c)) ∘ fun e =>
                      (e.1, gmOffset E g e.2.1 e.2.2)) (E.pix i j, i, j) = true
                · rw [if_pos hc]
                  rcases hc with ⟨-, hc2⟩
                  simp only [Function.comp, Bool.and_eq_true, beq_iff_eq] at hc2
                  have hx : scaleTrunc g (((E.cols / 2 : Nat) : Int) - j) = p.x := by
                    have := congrArg Pt.x hc2.1
                    simpa [gmOffset] using this
                  rw [if_pos (by simpa using hx)]
                · rw [if_neg hc]
                  exact Nat.zero_le _
            _ = 1 * (scanIdxs 0 (E.cols : Int) 1).countP
                  (fun j => scaleTrunc g (((E.cols / 2 : Nat) : Int) - j) == p.x) :=
                sum_map_ite_count _ _ 1
            _ ≤ 39 := by
                rw [one_mul]
                exact hxm
        · rw [if_neg hy]
          have hall : ∀ j ∈ scanIdxs 0 (E.cols : Int) 1,
              (if E.pix i j ≠ 0 ∧
                  ((fun e => (e.2 == p) && (e.1 == c)) ∘ fun e =>
                    (e.1, gmOffset E g e.2.1 e.2.2)) (E.pix i j, i, j) = true then 1 else 0) = 0 := by
            intro j _
            rw [if_neg]
            rintro ⟨-, hc2⟩
            simp only [Function.comp, Bool.and_eq_true, beq_iff_eq] at hc2
            have hyv : scaleTrunc g (((E.rows / 2 : Nat) : Int) - i) = p.y := by
              have := congrArg Pt.y hc2.1
              simpa [gmOffset] using this
            exact hy (by simpa using hyv)
          refine le_of_eq (List.sum_eq_zero ?_)
          intro v hv
          rcases List.mem_map.1 hv with ⟨j, hj, rfl⟩
          exact hall j hj
    _ = 39 * (scanIdxs 0 (E.rows : Int) 1).countP
          (fun i => scaleTrunc g (((E.rows / 2 : Nat) : Int) - i) == p.y) :=
        sum_map_ite_count _ _ 39
    _ ≤ 39 * 39 := Nat.mul_le_mul_left 39 hym
    _ = 1521 := rfl

theorem mem_keysOf_innerMapOf {s : List Pt} {p : Pt} :
    p ∈ keysOf (innerMapOf s) ↔ p ∈ s := by
  constructor
  · intro h
    by_contra hns
    have hz : s.count p = 0 := List.count_eq_zero.2 hns
    have : lookupPt (innerMapOf s) p = none := by
      rw [innerMapOf_lookup, if_pos hz]
    exact (lookupPt_eq_none_iff.1 this) h
  · intro h
    by_contra hnk
    have : lookupPt (innerMapOf s) p = none := lookupPt_eq_none_iff.2 hnk
    rw [innerMapOf_lookup] at this
    rw [if_neg (Nat.pos_iff_ne_zero.1 (List.count_pos_iff.2 h))] at this
    exact Option.noConfusion this

theorem innerMapOf_sum_votes (s : List Pt) (hmax : ∀ p, s.count p < 65536) :
    (((innerMapOf s).map (fun e => e.2)).sum) = s.length := by
  have hmemv : ∀ e ∈ innerMapOf s, e.2 = s.count e.1 := by
    intro e he
    rcases mem_innerMapOf_iff.1 he with ⟨-, hv⟩
    rw [hv, Nat.mod_eq_of_lt (hmax e.1)]
  rw [List.map_congr_left hmemv]
  have hcomp : (innerMapOf s).map (fun e => s.count e.1) =
      (keysOf (innerMapOf s)).map (fun p => s.count p) := by
    rw [keysOf, List.map_map]
    rfl
  rw [hcomp]
  rw [← List.sum_toFinset _ (keysOf_nodup (innerMapOf_sorted s))]
  have hfs : (keysOf (innerMapOf s)).toFinset = s.toFinset := by
    ext p
    simp [List.mem_toFinset, mem_keysOf_innerMapOf]
  rw [hfs]
  exact List.sum_toFinset_count_eq_length s

theorem foldl_max_init_le (s : List (Nat × Pt)) :
    ∀ init : Nat, init ≤ s.foldl (fun m e => max m e.1) init := by
  induction s with
  | nil => intro init; exact le_refl _
  | cons a t ih =>
    intro init
    exact le_trans (Nat.le_max_left init a.1) (ih (max init a.1))

theorem foldl_max_mem_le (s : List (Nat × Pt)) :
    ∀ (init : Nat) (e : Nat × Pt), e ∈ s → e.1 ≤ s.foldl (fun m e => max m e.1) init := by
  induction s with
  | nil => intro init e he; simp at he
  | cons a t ih =>
    intro init e he
    simp only [List.foldl_cons]
    rcases List.mem_cons.1 he with he' | he'
    · rw [he']
      exact le_trans (Nat.le_max_right init a.1) (foldl_max_init_le t _)
    · exact ih (max init a.1) e he'

theorem maxCodeOf_ge {s : List (Nat × Pt)} {e : Nat × Pt} (h : e ∈ s) :
    e.1 ≤ maxCodeOf s :=
  foldl_max_mem_le s 0 e h

theorem sum_map_add {α : Type} (l : List α) (f g : α → Nat) :
    (l.map (fun a => f a + g a)).sum = (l.map f).sum + (l.map g).sum := by
  induction l with
  | nil => rfl
  | cons a t ih =>
    simp only [List.map_cons, List.sum_cons, ih]
    omega

theorem toFinset_list_range (n : Nat) : (List.range n).toFinset = Finset.range n := by
  ext a
  simp [List.mem_toFinset, List.mem_range, Finset.mem_range]

theorem sum_range_indicator (n a : Nat) (h : a < n) :
    ((List.range n).map (fun c => if (a == c) = true then 1 else 0)).sum = 1 := by
  rw [← List.sum_toFinset _ (List.nodup_range n), toFinset_list_range]
  have : ∀ c ∈ Finset.range n, (if (a == c) = true then 1 else 0) =
      (if a = c then (fun _ => 1) c else 0) := by
    intro c _
    by_cases hc : a = c
    · simp [hc]
    · simp [hc]
  rw [Finset.sum_congr rfl this, Finset.sum_ite_eq (Finset.range n) a (fun _ => 1),
    if_pos (Finset.mem_range.2 h)]

theorem sum_countP_code (s : List (Nat × Pt)) (n : Nat) (h : ∀ e ∈ s, e.1 < n) :
    ((List.range n).map (fun c => s.countP (fun e => e.1 == c))).sum = s.length := by
  induction s with
  | nil => simp
  | cons a t ih =>
    have ht := ih (fun e he => h e (List.mem_cons_of_mem _ he))
    have hsplit : ∀ c : Nat, (a :: t).countP (fun e => e.1 == c) =
        t.countP (fun e => e.1 == c) + (if (a.1 == c) = true then 1 else 0) := by
      intro c
      rw [List.countP_cons]
    have hmape : (List.range n).map (fun c => (a :: t).countP (fun e => e.1 == c)) =
        (List.range n).map (fun c =>
          t.countP (fun e => e.1 == c) + (if (a.1 == c) = true then 1 else 0)) :=
      List.map_congr_left (fun c _ => hsplit c)
    rw [hmape, sum_map_add, ht, sum_range_indicator n a.1 (h a (List.mem_cons_self _ _))]
    simp

theorem getD_range_map {α : Type} (n : Nat) (f : Nat → List α) (c : Nat) :
    ((List.range n).map f).getD c [] = if c < n then f c else [] := by
  by_cases h : c < n
  · rw [if_pos h]
    simp [List.getD, List.getElem?_map, List.getElem?_range h]
  · rw [if_neg h]
    have hlen : ((List.range n).map f).length ≤ c := by
      simp
      omega
    rw [List.getD, List.get?_eq_getElem?, List.getElem?_eq_none hlen]
    rfl

theorem entriesAt_tableOfStream (w h : Nat) (s : List (Nat × Pt)) (c : Nat) :
    ghbase.entriesAt (tableOfStream w h s) c =
      if c < maxCodeOf s + 1 then innerMapOf (codeOffsets s c) else [] := by
  unfold ghbase.entriesAt tableOfStream
  exact getD_range_map _ _ c

theorem length_codeOffsets (s : List (Nat × Pt)) (c : Nat) :
    (codeOffsets s c).length = s.countP (fun e => e.1 == c) := by
  unfold codeOffsets
  rw [List.length_map, ← List.countP_eq_length_filter]

theorem tableTotal_tableOfStream (w h : Nat) (s : List (Nat × Pt))
    (hno : ∀ c p, (codeOffsets s c).count p < 65536) :
    ghbase.tableTotal (tableOfStream w h s) = s.length := by
  unfold ghbase.tableTotal tableOfStream
  simp only [List.map_map]
  have hinner : ∀ c ∈ List.range (maxCodeOf s + 1),
      ((fun l => (l.map (fun e : Pt × Nat => e.2)).sum) ∘
        fun c => innerMapOf (codeOffsets s c)) c =
      (codeOffsets s c).length := by
    intro c _
    exact innerMapOf_sum_votes (codeOffsets s c) (hno c)
  rw [List.map_congr_left hinner]
  have hlen : ∀ c ∈ List.range (maxCodeOf s + 1),
      (codeOffsets s c).length = s.countP (fun e => e.1 == c) := by
    intro c _
    exact length_codeOffsets s c
  rw [List.map_congr_left hlen]
  exact sum_countP_code s (maxCodeOf s + 1) (fun e he => by
    have := maxCodeOf_ge he
    omega)

theorem streamGM_length (E : Image) (g : Frac) :
    (streamGM E g).length = countNonzero E := by
  unfold streamGM countNonzero
  rw [List.length_map]

theorem bucket_count_lt_wrap (E : Image) (scale : Frac) (c : Nat) (p : Pt) :
    (codeOffsets (streamGM E (clampScale scale)) c).count p < 65536 :=
  lt_of_le_of_lt (bucket_count_le E _ (clampScale_den_le scale) c p) (by decide)

end ghalgo

/-- C6: for every encoded template image and every scale factor, the sum of the
stored vote weights over all entries of the built lookup table (the
`total_votes` accumulated by `GradientMatcher::create_ghough_table`, and the
`max_votes` counter of `create_lookup_table`) equals the number of pixels with
nonzero orientation code in the encoded template, even when scaling collapses
several pixels onto the same (code, offset) pair. -/
theorem C6_total_votes (E : Image) (scale : Frac) (max_key : Nat) :
    ghbase.tableTotal (ghalgo.create_ghough_table E scale) = ghalgo.countNonzero E ∧
    (ghalgo.create_lookup_table E max_key).max_votes = ghalgo.countNonzero E := by
  constructor
  · unfold ghalgo.create_ghough_table
    rw [ghalgo.tableTotal_tableOfStream _ _ _
      (fun c p => ghalgo.bucket_count_lt_wrap E scale c p)]
    exact ghalgo.streamGM_length E (clampScale scale)
  · rfl

theorem acc_zero_of_all_empty (img : Image) (t : ghbase.T_lookup_table)
    (h : ∀ c, ghbase.entriesAt t c = []) :
    (∀ y x : Int, ghbase.apply_ghough_transform_allpix img t y x = 0) ∧
    (∀ y x : Int, ghbase.apply_ghough_transform img t y x = 0) := by
  constructor
  · intro y x
    unfold ghbase.apply_ghough_transform_allpix
    refine List.sum_eq_zero ?_
    intro v hv
    rcases List.mem_map.1 hv with ⟨i, _, rfl⟩
    refine List.sum_eq_zero ?_
    intro w hw
    rcases List.mem_map.1 hw with ⟨j, _, rfl⟩
    simp [ghbase.allpixCellAdds, h]
  · intro y x
    unfold ghbase.apply_ghough_transform
    refine List.sum_eq_zero ?_
    intro v hv
    rcases List.mem_map.1 hv with ⟨i, _, rfl⟩
    refine List.sum_eq_zero ?_
    intro w hw
    rcases List.mem_map.1 hw with ⟨j, _, rfl⟩
    simp [ghbase.strictCellAdds, h]

/-- C2: the lookup table built by `GradientMatcher::create_ghough_table`
(`src/GradientMatcher.cpp`) does NOT have `maxCode+1` entries derived from the
shared configuration value: for the 2×2 template whose only nonzero code is 3,
with quantization steps `q = 8` (so `maxCode = q + 1 = 9` and the claim
demands 10 entries), it allocates only `max_data_code + 1 = 4` entries, so a
valid scene code above 3 misses the table.  The `create_lookup_table` variant
(`src/unnamed/part_004`), which receives `max_key = q + 1` from the shared
configuration, produces the claimed `maxCode + 1 = 10` dense entries. -/
theorem C2_entry_count_eval :
    (ghalgo.create_ghough_table exE2 fracOne).elems.length = 4 ∧
    4 ≠ 9 + 1 ∧
    (ghalgo.create_lookup_table exE2 9).elems.length = 10 := by
  refine ⟨by decide, by decide, by decide⟩

/-- C5: building a table from an all-zero 3×3 template with
`GradientMatcher::create_ghough_table` yields a table whose only entry (for
code 0) is empty, as claimed; but voting a scene containing code 1 (a valid
code, `≤ maxCode`) against it makes `apply_ghough_transform_allpix` index
`elems[1]` past the 1-element `elems` array — the in-range precondition of
the C++ array access fails, so "completes without raising an error" is not
guaranteed by the code.  In the idealized total semantics (out-of-range
lookups read an empty entry list) the accumulator is all-zero as claimed. -/
theorem C5_degenerate_eval :
    (ghalgo.create_ghough_table exE0 fracOne).elems = [[]] ∧
    ghbase.allpixCodesInRange exS4 (ghalgo.create_ghough_table exE0 fracOne) = false ∧
    ∀ y x : Int,
      ghbase.apply_ghough_transform_allpix exS4 (ghalgo.create_ghough_table exE0 fracOne) y x = 0 := by
  have h1 : (ghalgo.create_ghough_table exE0 fracOne).elems = [[]] := by decide
  refine ⟨h1, by decide, ?_⟩
  refine (acc_zero_of_all_empty exS4 _ ?_).1
  intro c
  unfold ghbase.entriesAt
  rw [h1]
  cases c with
  | zero => rfl
  | succ n => rfl

/-! ### Quantization-step lemmas (C7) -/

namespace ghalgo

theorem clampSteps_int {q : Frac} (hq : q.den = 1) :
    (clampSteps q).den = 1 ∧ 4 ≤ (clampSteps q).num ∧ (clampSteps q).num ≤ 254 := by
  unfold clampSteps
  rw [hq]
  by_cases h1 : q.num > 254 * 1
  · rw [if_pos h1]
    refine ⟨rfl, by decide, by decide⟩
  · rw [if_neg h1]
    by_cases h2 : q.num < 4 * 1
    · rw [if_pos h2]
      refine ⟨rfl, by decide, by decide⟩
    · rw [if_neg h2]
      exact ⟨hq, by omega, by omega⟩

theorem roundHalfUp_range {A N D : Int} (hA : 0 ≤ A) (hN : 0 ≤ N) (hND : N ≤ D)
    (hD : 0 < D) :
    1 ≤ roundHalfUp (A * N + D) D ∧ roundHalfUp (A * N + D) D ≤ A + 1 := by
  unfold roundHalfUp
  rw [Int.fdiv_eq_ediv _ (by omega : (0:Int) ≤ 2 * D)]
  have hmod := Int.ediv_add_emod (2 * (A * N + D) + D) (2 * D)
  have hmn := Int.emod_nonneg (2 * (A * N + D) + D) (by omega : (2 * D) ≠ 0)
  have hml := Int.emod_lt_of_pos (2 * (A * N + D) + D) (by omega : (0:Int) < 2 * D)
  have hAN0 : 0 ≤ A * N := mul_nonneg hA hN
  have hAND : A * N ≤ A * D := mul_le_mul_of_nonneg_left hND hA
  set v := (2 * (A * N + D) + D) / (2 * D) with hv
  constructor
  · rcases le_or_lt 1 v with h | h
    · exact h
    · exfalso
      have hv0 : v ≤ 0 := by omega
      have hle : 2 * D * v ≤ 0 :=
        mul_nonpos_of_nonneg_of_nonpos (by omega : (0:Int) ≤ 2 * D) hv0
      omega
  · rcases le_or_lt v (A + 1) with h | h
    · exact h
    · exfalso
      have hge : 2 * D * (A + 2) ≤ 2 * D * v :=
        mul_le_mul_of_nonneg_left (by omega) (by omega : (0:Int) ≤ 2 * D)
      have hexp : 2 * D * (A + 2) = 2 * (A * D) + 4 * D := by ring
      omega

theorem roundHalfUp_exact (A : Int) : roundHalfUp (A + 1) 1 = A + 1 := by
  unfold roundHalfUp
  rw [Int.fdiv_eq_ediv _ (by omega : (0:Int) ≤ 2 * 1)]
  omega

theorem satU8_of_range {z : Int} (h1 : 1 ≤ z) (h2 : z ≤ 255) :
    satU8 z = z.toNat := by
  unfold satU8
  omega

theorem satU8_le_255 (z : Int) : satU8 z ≤ 255 := by
  unfold satU8
  omega

theorem land_255_of_lt {x : Nat} (h : x < 256) : Nat.land x 255 = x := by
  apply Nat.eq_of_testBit_eq
  intro i
  show ((x &&& 255).testBit i) = x.testBit i
  rw [Nat.testBit_and]
  rcases lt_or_ge i 8 with hi | hi
  · have h255 : (255 : Nat) = 2 ^ 8 - 1 := by decide
    rw [h255, Nat.testBit_two_pow_sub_one]
    simp [hi]
  · have hx : x.testBit i = false :=
      Nat.testBit_lt_two_pow (lt_of_lt_of_le h (Nat.pow_le_pow_right (by decide : 0 < 2) hi))
    simp [hx]

end ghalgo

/-- C7 counterexample: with quantization steps `q = 8`, an angle of exactly
`2π` (`t = 1`) receives code `q + 1 = 9`, while an angle of exactly `0`
receives code `1` — the two do NOT land on the same code, refuting that part
of the claim (the codes do stay within `maxCode = q + 1`). -/
theorem C7_counterexample :
    ghalgo.gradOrientationCode (mkFracP 8 0) (mkFracP 1 0) true = 9 ∧
    ghalgo.gradOrientationCode (mkFracP 8 0) (mkFracP 0 0) true = 1 ∧
    (9 : Nat) ≠ 1 :=
  ⟨by decide, by decide, by decide⟩

theorem mask_true_val : (if (true : Bool) = true then (255 : Nat) else 0) = 255 := rfl

theorem mask_false_val : (if (false : Bool) = true then (255 : Nat) else 0) = 0 := rfl

/-- C7 (amended): for every integer quantization-steps value `q` (clamped to
`[4, 254]`) and every angle fraction `t = angle/2π ∈ [0, 1]`, an unmasked
pixel's code lies in `1 .. clamp(q) + 1`; the code never exceeds
`maxCode = clamp(q) + 1 ≤ 255` even for an angle measured as exactly `2π`,
which receives the distinct reserved code `clamp(q) + 1` (not the code 1 of
angle `0`); and every masked-off pixel receives code `0`. -/
theorem C7_quantization_amended (q t : Frac) (hq : q.den = 1)
    (ht0 : 0 ≤ t.num) (ht1 : t.num ≤ t.den) :
    ghalgo.gradOrientationCode q t false = 0 ∧
    1 ≤ ghalgo.gradOrientationCode q t true ∧
    ghalgo.gradOrientationCode q t true ≤ (ghalgo.clampSteps q).num.toNat + 1 ∧
    ghalgo.gradOrientationCode q (mkFracP 1 0) true = (ghalgo.clampSteps q).num.toNat + 1 ∧
    (ghalgo.clampSteps q).num.toNat + 1 ≤ 255 := by
  obtain ⟨hB, hA4, hA254⟩ := ghalgo.clampSteps_int hq
  have htd := t.den_pos
  have hr := ghalgo.roundHalfUp_range (A := (ghalgo.clampSteps q).num) (N := t.num)
    (D := t.den) (by omega) ht0 ht1 htd
  have hv255 : ghalgo.roundHalfUp ((ghalgo.clampSteps q).num * t.num + t.den) t.den ≤ 255 := by
    omega
  refine ⟨?_, ?_, ?_, ?_, by omega⟩
  · unfold ghalgo.gradOrientationCode
    rw [mask_false_val]
    exact Nat.and_zero _
  · unfold ghalgo.gradOrientationCode
    rw [hB, mask_true_val]
    simp only [one_mul]
    rw [ghalgo.satU8_of_range hr.1 hv255]
    rw [ghalgo.land_255_of_lt (by omega)]
    omega
  · unfold ghalgo.gradOrientationCode
    rw [hB, mask_true_val]
    simp only [one_mul]
    rw [ghalgo.satU8_of_range hr.1 hv255]
    rw [ghalgo.land_255_of_lt (by omega)]
    omega
  · unfold ghalgo.gradOrientationCode
    rw [hB, mask_true_val]
    simp only [one_mul]
    have h1 : (ghalgo.clampSteps q).num * (mkFracP 1 0).num + (mkFracP 1 0).den =
        (ghalgo.clampSteps q).num + 1 := by
      simp [mkFracP]
    have h2 : (mkFracP 1 0).den = 1 := by
      simp [mkFracP]
    rw [h2] at h1 ⊢
    rw [h1, ghalgo.roundHalfUp_exact]
    rw [ghalgo.satU8_of_range (by omega) (by omega)]
    rw [ghalgo.land_255_of_lt (by omega)]
    omega

/-- C7 witness: the amended statement instantiated at `q = 8`,
`t = 1/2` (angle `π`). -/
theorem C7_witness :
    ghalgo.gradOrientationCode (mkFracP 8 0) (mkFracP 1 1) false = 0 ∧
    1 ≤ ghalgo.gradOrientationCode (mkFracP 8 0) (mkFracP 1 1) true ∧
    ghalgo.gradOrientationCode (mkFracP 8 0) (mkFracP 1 1) true ≤
      (ghalgo.clampSteps (mkFracP 8 0)).num.toNat + 1 ∧
    ghalgo.gradOrientationCode (mkFracP 8 0) (mkFracP 1 0) true =
      (ghalgo.clampSteps (mkFracP 8 0)).num.toNat + 1 ∧
    (ghalgo.clampSteps (mkFracP 8 0)).num.toNat + 1 ≤ 255 :=
  C7_quantization_amended (mkFracP 8 0) (mkFracP 1 1) (by decide) (by decide) (by decide)

/-! ### Offsets of built tables and strict-policy write safety (C3) -/

namespace ghalgo

theorem mem_pixStream {E : Image} {e : Nat × Int × Int} (h : e ∈ pixStream E) :
    0 ≤ e.2.1 ∧ e.2.1 < (E.rows : Int) ∧ 0 ≤ e.2.2 ∧ e.2.2 < (E.cols : Int) ∧
    e.1 = E.pix e.2.1 e.2.2 ∧ e.1 ≠ 0 := by
  unfold pixStream at h
  rcases List.mem_flatMap.1 h with ⟨i, hi, h2⟩
  rcases List.mem_flatMap.1 h2 with ⟨j, hj, h3⟩
  have hib := mem_scanIdxs_bounds hi
  have hjb := mem_scanIdxs_bounds hj
  by_cases hz : E.pix i j ≠ 0
  · rw [if_pos hz] at h3
    rcases List.mem_singleton.1 h3 with rfl
    exact ⟨show (0 : Int) ≤ i by omega, show i < (E.rows : Int) by omega,
      show (0 : Int) ≤ j by omega, show j < (E.cols : Int) by omega, rfl, hz⟩
  · rw [if_neg hz] at h3
    cases h3

theorem mem_streamGM {E : Image} {g : Frac} {e : Nat × Pt} (h : e ∈ streamGM E g) :
    ∃ i j : Int, 0 ≤ i ∧ i < (E.rows : Int) ∧ 0 ≤ j ∧ j < (E.cols : Int) ∧
      e.2 = gmOffset E g i j := by
  unfold streamGM at h
  rcases List.mem_map.1 h with ⟨e', he', rfl⟩
  rcases mem_pixStream he' with ⟨h1, h2, h3, h4, -, -⟩
  exact ⟨e'.2.1, e'.2.2, h1, h2, h3, h4, rfl⟩

theorem gmOffset_bound {E : Image} {g : Frac} {i j : Int}
    (hnum : 0 < g.num) (hle : g.num ≤ g.den)
    (hi1 : 0 ≤ i) (hi2 : i < (E.rows : Int)) (hj1 : 0 ≤ j) (hj2 : j < (E.cols : Int)) :
    (gmOffset E g i j).x.natAbs ≤ E.cols / 2 ∧ (gmOffset E g i j).y.natAbs ≤ E.rows / 2 := by
  constructor
  · have htr := scaleTrunc_abs_le hnum hle (((E.cols / 2 : Nat) : Int) - j)
    have : (((E.cols / 2 : Nat) : Int) - j).natAbs ≤ E.cols / 2 := by omega
    exact le_trans htr this
  · have htr := scaleTrunc_abs_le hnum hle (((E.rows / 2 : Nat) : Int) - i)
    have : (((E.rows / 2 : Nat) : Int) - i).natAbs ≤ E.rows / 2 := by omega
    exact le_trans htr this

theorem mem_codeOffsets {s : List (Nat × Pt)} {c : Nat} {p : Pt}
    (h : p ∈ codeOffsets s c) : ∃ e ∈ s, e.2 = p := by
  unfold codeOffsets at h
  rcases List.mem_map.1 h with ⟨e, he, rfl⟩
  exact ⟨e, List.mem_filter.1 he |>.1, rfl⟩

theorem create_ghough_table_offBounded (E : Image) (scale : Frac)
    (hscale : (clampScale scale).num ≤ (clampScale scale).den) :
    offBounded (create_ghough_table E scale) := by
  intro l hl e he
  unfold create_ghough_table tableOfStream at hl
  simp only at hl
  rcases List.mem_map.1 hl with ⟨c, -, rfl⟩
  have hkey : e.1 ∈ codeOffsets (streamGM E (clampScale scale)) c :=
    (mem_innerMapOf_iff.1 he).1
  rcases mem_codeOffsets hkey with ⟨e', he', hp⟩
  rcases mem_streamGM he' with ⟨i, j, hi1, hi2, hj1, hj2, hoff⟩
  rw [← hp, hoff]
  have := gmOffset_bound (g := clampScale scale) (clampScale_num_pos scale) hscale
    hi1 hi2 hj1 hj2
  exact this

end ghalgo

theorem mem_entriesAt_cases (t : ghbase.T_lookup_table) (c : Nat) :
    ghbase.entriesAt t c ∈ t.elems ∨ ghbase.entriesAt t c = [] := by
  unfold ghbase.entriesAt
  by_cases h : c < t.elems.length
  · left
    rw [List.getD, List.get?_eq_getElem?, List.getElem?_eq_getElem h]
    exact List.getElem_mem h
  · right
    rw [List.getD, List.get?_eq_getElem?, List.getElem?_eq_none (by omega)]
    rfl

theorem strictInBounds_of_offBounded (img : Image) (t : ghbase.T_lookup_table)
    (h : ghalgo.offBounded t) : ghbase.strictInBounds img t = true := by
  unfold ghbase.strictInBounds
  rw [List.all_eq_true]
  intro i hi
  rw [List.all_eq_true]
  intro j hj
  rw [List.all_eq_true]
  intro e he
  have hib := mem_scanIdxs_bounds hi
  have hjb := mem_scanIdxs_bounds hj
  have hbound : e.1.x.natAbs ≤ t.img_w / 2 ∧ e.1.y.natAbs ≤ t.img_h / 2 := by
    rcases mem_entriesAt_cases t (img.pix i j) with hc | hc
    · exact h _ hc e he
    · rw [hc] at he
      cases he
  simp only [Bool.and_eq_true, decide_eq_true_eq]
  unfold ghbase.strictScanRows at hib
  unfold ghbase.strictScanCols at hjb
  omega

/-- C3 counterexample: the claim fails as stated.  (1) With scaleFactor 10
(inside the claimed range [0.1, 10]), the table built from a 10×10 template
with one feature pixel stores offset (50, 50); on a constant-code 20×20 scene
the strict transform's unchecked destination writes leave the accumulator —
the write-safety check evaluates to false.  (2) Even at scaleFactor 1, the
accumulator cell (10, 1) — in the border ring, since 1 < img_sz.width/2 = 5 —
receives a vote from the strict transform, so the border ring does not stay 0. -/
theorem C3_counterexample :
    ghbase.strictInBounds exS20c (ghalgo.create_ghough_table exE10 (mkFracP 10 0)) = false ∧
    ghbase.apply_ghough_transform exS20b (ghalgo.create_ghough_table exE10b fracOne) 10 1 = 1 ∧
    1 < exE10b.cols / 2 :=
  ⟨by decide, by decide, by decide⟩

/-- C3 (amended): for every lookup table built by `create_ghough_table` from a
template with a scale factor in [0.1, 1] and every scene image, every
destination index `(mx, my) = (j + offset.x, i + offset.y)` computed inside
the strict transform's scan region satisfies `0 ≤ mx < cols` and
`0 ≤ my < rows`, so no per-write bounds check is needed.  (For scale factors
above 1 the writes can leave the accumulator, and cells in the border ring
can receive votes, so those parts of the original claim are dropped.) -/
theorem C3_strict_write_safety_amended (E img : Image) (scale : Frac)
    (hlo : scale.den ≤ 10 * scale.num) (hhi : scale.num ≤ scale.den) :
    ghbase.strictInBounds img (ghalgo.create_ghough_table E scale) = true :=
  strictInBounds_of_offBounded img _
    (ghalgo.create_ghough_table_offBounded E scale
      (by rw [clampScale_eq_self hlo hhi]; exact hhi))

/-- C3 witness: the amended statement instantiated at the 10×10 one-pixel
template, the 20×20 one-pixel scene and scale factor 1. -/
theorem C3_witness :
    ghbase.strictInBounds exS20 (ghalgo.create_ghough_table exE10 fracOne) = true :=
  C3_strict_write_safety_amended exE10 exS20 fracOne (by decide) (by decide)

/-! ### Stride monotonicity (C8) -/

theorem nested_sum_step_le (lo1 hi1 lo2 hi2 : Int) (f : Int → Int → Nat)
    (step : Nat) (hstep : 0 < step) :
    ((scanIdxs lo1 hi1 step).map (fun i => ((scanIdxs lo2 hi2 step).map (fun j => f i j)).sum)).sum ≤
    ((scanIdxs lo1 hi1 1).map (fun i => ((scanIdxs lo2 hi2 1).map (fun j => f i j)).sum)).sum := by
  calc ((scanIdxs lo1 hi1 step).map (fun i => ((scanIdxs lo2 hi2 step).map (fun j => f i j)).sum)).sum
      ≤ ((scanIdxs lo1 hi1 step).map (fun i => ((scanIdxs lo2 hi2 1).map (fun j => f i j)).sum)).sum :=
        sum_map_le_sum_map _ _ _ (fun i _ => sum_scanIdxs_step_le lo2 hi2 step hstep (fun j => f i j))
    _ ≤ ((scanIdxs lo1 hi1 1).map (fun i => ((scanIdxs lo2 hi2 1).map (fun j => f i j)).sum)).sum :=
        sum_scanIdxs_step_le lo1 hi1 step hstep _

theorem foldr_max_mono (l : List Int) (f g : Int → Nat) (h : ∀ a ∈ l, f a ≤ g a) :
    (l.map f).foldr max 0 ≤ (l.map g).foldr max 0 := by
  induction l with
  | nil => exact le_refl _
  | cons a t ih =>
    simp only [List.map_cons, List.foldr_cons]
    exact max_le_max (h a (List.mem_cons_self a t))
      (ih (fun b hb => h b (List.mem_cons_of_mem a hb)))

theorem gridMax_mono (rows cols : Nat) (f g : Int → Int → Nat)
    (h : ∀ y x, f y x ≤ g y x) :
    ghalgo.gridMax rows cols f ≤ ghalgo.gridMax rows cols g := by
  unfold ghalgo.gridMax
  refine foldr_max_mono _ _ _ ?_
  intro y _
  refine foldr_max_mono _ _ _ ?_
  intro x _
  exact h y x

/-- C8: for every scene orientation-code image and every `part_004`-style
lookup table, the accumulator produced at sampling stride 2 is pointwise at
most the accumulator produced at stride 1 (stride 2 visits a subset of the
rows/columns of stride 1), for both the strict and the all-pixel transform,
and hence the peak score (`minMaxLoc` maximum) at stride 1 is at least the
peak score at stride 2. -/
theorem C8_stride_monotone (img : Image) (t : ghalgo.LookupTable) :
    (∀ y x : Int,
      ghalgo.apply_ghough_transform_stride img t 2 y x ≤
        ghalgo.apply_ghough_transform_stride img t 1 y x ∧
      ghalgo.apply_ghough_transform_allpix_stride img t 2 y x ≤
        ghalgo.apply_ghough_transform_allpix_stride img t 1 y x) ∧
    ghalgo.gridMax img.rows img.cols (ghalgo.apply_ghough_transform_stride img t 2) ≤
      ghalgo.gridMax img.rows img.cols (ghalgo.apply_ghough_transform_stride img t 1) ∧
    ghalgo.gridMax img.rows img.cols (ghalgo.apply_ghough_transform_allpix_stride img t 2) ≤
      ghalgo.gridMax img.rows img.cols (ghalgo.apply_ghough_transform_allpix_stride img t 1) := by
  have hpt : ∀ y x : Int,
      ghalgo.apply_ghough_transform_stride img t 2 y x ≤
        ghalgo.apply_ghough_transform_stride img t 1 y x ∧
      ghalgo.apply_ghough_transform_allpix_stride img t 2 y x ≤
        ghalgo.apply_ghough_transform_allpix_stride img t 1 y x := by
    intro y x
    constructor
    · exact nested_sum_step_le _ _ _ _ (fun i j => ghalgo.strictCellAddsU t img i j y x)
        2 (by decide)
    · exact nested_sum_step_le _ _ _ _ (fun i j => ghalgo.allpixCellAddsU t img i j y x)
        2 (by decide)
  refine ⟨hpt, ?_, ?_⟩
  · exact gridMax_mono _ _ _ _ (fun y x => (hpt y x).1)
  · exact gridMax_mono _ _ _ _ (fun y x => (hpt y x).2)

/-! ### Accumulator-cell bound by the table's total weight (C9) -/

theorem entriesAt_eq_nil_of_le (t : ghbase.T_lookup_table) (c : Nat)
    (h : t.elems.length ≤ c) : ghbase.entriesAt t c = [] := by
  unfold ghbase.entriesAt
  rw [List.getD, List.get?_eq_getElem?, List.getElem?_eq_none h]
  rfl

theorem sum_map_eq_range_sum {α : Type} (l : List α) (d : α) (f : α → Nat) :
    (l.map f).sum = ∑ k in Finset.range l.length, f (l.getD k d) := by
  induction l with
  | nil => simp
  | cons a t ih =>
    simp only [List.map_cons, List.sum_cons, List.length_cons]
    rw [Finset.sum_range_succ']
    have h1 : (∑ k in Finset.range t.length, f ((a :: t).getD (k + 1) d)) =
        ∑ k in Finset.range t.length, f (t.getD k d) :=
      Finset.sum_congr rfl (fun k _ => rfl)
    rw [h1, ← ih]
    have h0 : f ((a :: t).getD 0 d) = f a := rfl
    rw [h0]
    omega

theorem tableTotal_eq_range_sum (t : ghbase.T_lookup_table) :
    ghbase.tableTotal t =
      ∑ c in Finset.range t.elems.length,
        ((ghbase.entriesAt t c).map (fun e => e.2)).sum := by
  unfold ghbase.tableTotal
  rw [sum_map_eq_range_sum t.elems []]
  rfl

theorem keyfilter_eq (l : List (Pt × Nat)) (i j y x : Int) :
    l.filter (fun e => decide (i + e.1.y = y) && decide (j + e.1.x = x)) =
    l.filter (fun e => e.1 == Pt.mk (x - j) (y - i)) := by
  refine List.filter_congr ?_
  intro e _
  refine Bool.eq_iff_iff.mpr ?_
  simp only [Bool.and_eq_true, decide_eq_true_eq, beq_iff_eq]
  rcases e with ⟨⟨ex, ey⟩, w⟩
  simp only [Pt.mk.injEq]
  omega

theorem sum_keyWeight_le_voteSum (l : List (Pt × Nat)) (T : Finset (Int × Int))
    (κ : Int × Int → Pt) (hinj : ∀ a ∈ T, ∀ b ∈ T, κ a = κ b → a = b) :
    (∑ ij in T, ((l.filter (fun e => e.1 == κ ij)).map (fun e => e.2)).sum) ≤
      (l.map (fun e => e.2)).sum := by
  induction l with
  | nil => simp
  | cons a t ih =>
    have hsplit : ∀ ij : Int × Int,
        (((a :: t).filter (fun e => e.1 == κ ij)).map (fun e => e.2)).sum =
          (if (a.1 == κ ij) = true then a.2 else 0) +
            ((t.filter (fun e => e.1 == κ ij)).map (fun e => e.2)).sum := by
      intro ij
      rw [List.filter_cons]
      by_cases h : (a.1 == κ ij) = true
      · rw [if_pos h, if_pos h]
        simp
      · rw [if_neg h, if_neg h]
        omega
    rw [Finset.sum_congr rfl (fun ij _ => hsplit ij), Finset.sum_add_distrib]
    have h1 : (∑ ij in T, if (a.1 == κ ij) = true then a.2 else 0) ≤ a.2 := by
      have he : (∑ ij in T, if (a.1 == κ ij) = true then a.2 else 0) =
          ∑ ij in T.filter (fun ij => (a.1 == κ ij) = true), a.2 :=
        (Finset.sum_filter _ _).symm
      rw [he, Finset.sum_const, smul_eq_mul]
      have hcard : (T.filter (fun ij => (a.1 == κ ij) = true)).card ≤ 1 := by
        rw [Finset.card_le_one]
        intro u hu v hv
        rw [Finset.mem_filter] at hu hv
        have hu2 : κ u = a.1 := (beq_iff_eq.1 hu.2).symm
        have hv2 : κ v = a.1 := (beq_iff_eq.1 hv.2).symm
        exact hinj u hu.1 v hv.1 (hu2.trans hv2.symm)
      exact le_trans (Nat.mul_le_mul_right a.2 hcard) (by omega)
    have h2 := ih
    simp only [List.map_cons, List.sum_cons]
    omega

theorem acc_le_tableTotal_gen (img : Image) (t : ghbase.T_lookup_table) (y x : Int)
    (I J : List Int) (hI : I.Nodup) (hJ : J.Nodup) :
    (I.map (fun i => (J.map (fun j => ghbase.strictCellAdds t img i j y x)).sum)).sum ≤
      ghbase.tableTotal t := by
  rw [← List.sum_toFinset _ hI]
  have hin : ∀ i : Int, ((J.map (fun j => ghbase.strictCellAdds t img i j y x)).sum) =
      ∑ j in J.toFinset, ghbase.strictCellAdds t img i j y x :=
    fun i => (List.sum_toFinset _ hJ).symm
  rw [Finset.sum_congr rfl (fun i _ => hin i)]
  rw [← Finset.sum_product']
  have hcell : ∀ ij : Int × Int, ghbase.strictCellAdds t img ij.1 ij.2 y x =
      (((ghbase.entriesAt t (img.pix ij.1 ij.2)).filter
        (fun e => e.1 == Pt.mk (x - ij.2) (y - ij.1))).map (fun e => e.2)).sum := by
    intro ij
    unfold ghbase.strictCellAdds
    rw [keyfilter_eq]
  rw [Finset.sum_congr rfl (fun ij _ => hcell ij)]
  rw [← Finset.sum_filter_add_sum_filter_not (I.toFinset ×ˢ J.toFinset)
    (fun ij => img.pix ij.1 ij.2 < t.elems.length)]
  have hzero : (∑ ij in (I.toFinset ×ˢ J.toFinset).filter
      (fun ij => ¬ img.pix ij.1 ij.2 < t.elems.length),
      (((ghbase.entriesAt t (img.pix ij.1 ij.2)).filter
        (fun e => e.1 == Pt.mk (x - ij.2) (y - ij.1))).map (fun e => e.2)).sum) = 0 := by
    refine Finset.sum_eq_zero ?_
    intro ij hij
    rw [Finset.mem_filter] at hij
    rw [entriesAt_eq_nil_of_le t _ (by omega)]
    rfl
  rw [hzero, Nat.add_zero]
  rw [← Finset.sum_fiberwise_of_maps_to (g := fun ij : Int × Int => img.pix ij.1 ij.2)
    (t := Finset.range t.elems.length)
    (fun ij hij => by
      rw [Finset.mem_filter] at hij
      exact Finset.mem_range.2 hij.2)]
  rw [tableTotal_eq_range_sum]
  refine Finset.sum_le_sum ?_
  intro c _
  have hfib : ∀ ij ∈ ((I.toFinset ×ˢ J.toFinset).filter
      (fun ij => img.pix ij.1 ij.2 < t.elems.length)).filter
      (fun ij => img.pix ij.1 ij.2 = c),
      (((ghbase.entriesAt t (img.pix ij.1 ij.2)).filter
        (fun e => e.1 == Pt.mk (x - ij.2) (y - ij.1))).map (fun e => e.2)).sum =
      (((ghbase.entriesAt t c).filter
        (fun e => e.1 == Pt.mk (x - ij.2) (y - ij.1))).map (fun e => e.2)).sum := by
    intro ij hij
    rw [Finset.mem_filter] at hij
    rw [hij.2]
  rw [Finset.sum_congr rfl hfib]
  exact sum_keyWeight_le_voteSum (ghbase.entriesAt t c) _
    (fun ij => Pt.mk (x - ij.2) (y - ij.1))
    (fun a _ b _ hab => by
      have h1 := congrArg Pt.x hab
      have h2 := congrArg Pt.y hab
      simp only at h1 h2
      have : a.1 = b.1 := by omega
      have : a.2 = b.2 := by omega
      exact Prod.ext (by omega) (by omega))

theorem allpixCellAdds_le_strict (t : ghbase.T_lookup_table) (img : Image)
    (i j y x : Int) :
    ghbase.allpixCellAdds t img i j y x ≤ ghbase.strictCellAdds t img i j y x := by
  unfold ghbase.allpixCellAdds ghbase.strictCellAdds
  refine sum_filter_mono _ _ _ _ ?_
  intro e _ he
  simp only [Bool.and_eq_true, decide_eq_true_eq] at he ⊢
  exact ⟨he.1.2, he.2⟩

/-- C9: for every lookup table whose total vote weight is at most 65535 and
every scene image, no cell of the stride-1 vote accumulator exceeds 65535
under either border policy: for a fixed destination cell, each (code, offset)
table entry can be matched by at most one scan pixel, so a cell receives at
most the table's total weight and `uint16_t` accumulation never wraps
(intermediate values are bounded by the final value since every increment is
nonnegative). -/
theorem C9_no_overflow (img : Image) (t : ghbase.T_lookup_table)
    (h : ghbase.tableTotal t ≤ 65535) :
    ∀ y x : Int, ghbase.apply_ghough_transform img t y x ≤ 65535 ∧
      ghbase.apply_ghough_transform_allpix img t y x ≤ 65535 := by
  intro y x
  constructor
  · refine le_trans ?_ h
    unfold ghbase.apply_ghough_transform ghbase.strictScanRows ghbase.strictScanCols
    exact acc_le_tableTotal_gen img t y x _ _
      (scanIdxs_nodup _ _ 1 (by decide)) (scanIdxs_nodup _ _ 1 (by decide))
  · refine le_trans ?_ h
    unfold ghbase.apply_ghough_transform_allpix ghbase.allpixScanRows ghbase.allpixScanCols
    refine le_trans ?_ (acc_le_tableTotal_gen img t y x
      (scanIdxs 1 ((img.rows : Int) - 1) 1) (scanIdxs 1 ((img.cols : Int) - 1) 1)
      (scanIdxs_nodup _ _ 1 (by decide)) (scanIdxs_nodup _ _ 1 (by decide)))
    refine sum_map_le_sum_map _ _ _ ?_
    intro i _
    refine sum_map_le_sum_map _ _ _ ?_
    intro j _
    exact allpixCellAdds_le_strict t img i j y x

/-- C9 witness: the bound instantiated at the table built from the 6×6
template (total weight 2) and the 12×12 scene, at cell (6, 6). -/
theorem C9_witness :
    ghbase.apply_ghough_transform exS12 (ghalgo.create_ghough_table exE6 fracOne) 6 6 ≤ 65535 ∧
    ghbase.apply_ghough_transform_allpix exS12 (ghalgo.create_ghough_table exE6 fracOne) 6 6 ≤ 65535 :=
  C9_no_overflow exS12 (ghalgo.create_ghough_table exE6 fracOne) (by decide) 6 6

/-! ### Border-policy equivalence (C1) -/

theorem strictCellAdds_far_x (t : ghbase.T_lookup_table) (img : Image) (i j y x : Int)
    (hoff : ghalgo.offBounded t) (h : (t.img_w / 2 : Nat) < (x - j).natAbs) :
    ghbase.strictCellAdds t img i j y x = 0 := by
  unfold ghbase.strictCellAdds
  have hfil : (ghbase.entriesAt t (img.pix i j)).filter
      (fun e => decide (i + e.1.y = y) && decide (j + e.1.x = x)) = [] := by
    rw [List.filter_eq_nil_iff]
    intro e he hpe
    simp only [Bool.and_eq_true, decide_eq_true_eq] at hpe
    rcases mem_entriesAt_cases t (img.pix i j) with hc | hc
    · have hb := hoff _ hc e he
      omega
    · rw [hc] at he
      cases he
  rw [hfil]
  rfl

theorem strictCellAdds_far_y (t : ghbase.T_lookup_table) (img : Image) (i j y x : Int)
    (hoff : ghalgo.offBounded t) (h : (t.img_h / 2 : Nat) < (y - i).natAbs) :
    ghbase.strictCellAdds t img i j y x = 0 := by
  unfold ghbase.strictCellAdds
  have hfil : (ghbase.entriesAt t (img.pix i j)).filter
      (fun e => decide (i + e.1.y = y) && decide (j + e.1.x = x)) = [] := by
    rw [List.filter_eq_nil_iff]
    intro e he hpe
    simp only [Bool.and_eq_true, decide_eq_true_eq] at hpe
    rcases mem_entriesAt_cases t (img.pix i j) with hc | hc
    · have hb := hoff _ hc e he
      omega
    · rw [hc] at he
      cases he
  rw [hfil]
  rfl

theorem allpixCellAdds_eq_strict_of_inbounds (t : ghbase.T_lookup_table) (img : Image)
    (i j y x : Int) (hx1 : 0 ≤ x) (hx2 : x < (img.cols : Int))
    (hy1 : 0 ≤ y) (hy2 : y < (img.rows : Int)) :
    ghbase.allpixCellAdds t img i j y x = ghbase.strictCellAdds t img i j y x := by
  unfold ghbase.allpixCellAdds ghbase.strictCellAdds
  have hfc : (ghbase.entriesAt t (img.pix i j)).filter
      (fun e => decide (0 ≤ j + e.1.x) && decide (j + e.1.x < (img.cols : Int)) &&
                decide (0 ≤ i + e.1.y) && decide (i + e.1.y < (img.rows : Int)) &&
                decide (i + e.1.y = y) && decide (j + e.1.x = x)) =
      (ghbase.entriesAt t (img.pix i j)).filter
        (fun e => decide (i + e.1.y = y) && decide (j + e.1.x = x)) := by
    refine List.filter_congr ?_
    intro e _
    refine Bool.eq_iff_iff.mpr ?_
    simp only [Bool.and_eq_true, decide_eq_true_eq]
    constructor
    · intro hh
      exact ⟨hh.1.2, hh.2⟩
    · intro hh
      refine ⟨⟨⟨⟨⟨by omega, by omega⟩, by omega⟩, by omega⟩, hh.1⟩, hh.2⟩
  rw [hfc]

theorem sum_Ico_extend (lo hi lo' hi' : Int) (f : Int → Nat) (h1 : lo' ≤ lo) (h2 : hi ≤ hi')
    (hz : ∀ a, lo' ≤ a → a < hi' → (a < lo ∨ hi ≤ a) → f a = 0) :
    ∑ a in Finset.Ico lo hi, f a = ∑ a in Finset.Ico lo' hi', f a := by
  refine Finset.sum_subset (Finset.Ico_subset_Ico h1 h2) ?_
  intro a ha hna
  rw [Finset.mem_Ico] at ha
  rw [Finset.mem_Ico] at hna
  exact hz a ha.1 ha.2 (by omega)

theorem strict_acc_eq_full (img : Image) (t : ghbase.T_lookup_table)
    (hoff : ghalgo.offBounded t) (hw : 1 ≤ t.img_w) (hh : 1 ≤ t.img_h) (y x : Int)
    (hx1 : (t.img_w : Int) ≤ x) (hx2 : x ≤ (img.cols : Int) - 1 - (t.img_w : Int))
    (hy1 : (t.img_h : Int) ≤ y) (hy2 : y ≤ (img.rows : Int) - 1 - (t.img_h : Int)) :
    ghbase.apply_ghough_transform img t y x =
      ∑ i in Finset.Ico 0 (img.rows : Int), ∑ j in Finset.Ico 0 (img.cols : Int),
        ghbase.strictCellAdds t img i j y x := by
  unfold ghbase.apply_ghough_transform ghbase.strictScanRows ghbase.strictScanCols
  rw [sum_scanIdxs_one]
  have hinner : ∀ i : Int,
      ((scanIdxs ((t.img_w / 2 : Nat) : Int) ((img.cols : Int) - ((t.img_w / 2 : Nat) : Int)) 1).map
        (fun j => ghbase.strictCellAdds t img i j y x)).sum =
      ∑ j in Finset.Ico 0 (img.cols : Int), ghbase.strictCellAdds t img i j y x := by
    intro i
    rw [sum_scanIdxs_one]
    refine sum_Ico_extend _ _ _ _ _ (by omega) (by omega) ?_
    intro a _ _ hout
    exact strictCellAdds_far_x t img i a y x hoff (by omega)
  rw [Finset.sum_congr rfl (fun i _ => hinner i)]
  refine sum_Ico_extend _ _ _ _ _ (by omega) (by omega) ?_
  intro a _ _ hout
  refine Finset.sum_eq_zero ?_
  intro j _
  exact strictCellAdds_far_y t img a j y x hoff (by omega)

theorem allpix_acc_eq_full (img : Image) (t : ghbase.T_lookup_table)
    (hoff : ghalgo.offBounded t) (hw : 1 ≤ t.img_w) (hh : 1 ≤ t.img_h) (y x : Int)
    (hx1 : (t.img_w : Int) ≤ x) (hx2 : x ≤ (img.cols : Int) - 1 - (t.img_w : Int))
    (hy1 : (t.img_h : Int) ≤ y) (hy2 : y ≤ (img.rows : Int) - 1 - (t.img_h : Int)) :
    ghbase.apply_ghough_transform_allpix img t y x =
      ∑ i in Finset.Ico 0 (img.rows : Int), ∑ j in Finset.Ico 0 (img.cols : Int),
        ghbase.strictCellAdds t img i j y x := by
  unfold ghbase.apply_ghough_transform_allpix ghbase.allpixScanRows ghbase.allpixScanCols
  rw [sum_scanIdxs_one]
  have hinner : ∀ i : Int,
      ((scanIdxs 1 ((img.cols : Int) - 1) 1).map
        (fun j => ghbase.allpixCellAdds t img i j y x)).sum =
      ∑ j in Finset.Ico 0 (img.cols : Int), ghbase.strictCellAdds t img i j y x := by
    intro i
    rw [sum_scanIdxs_one]
    have hconv : ∀ j ∈ Finset.Ico (1 : Int) ((img.cols : Int) - 1),
        ghbase.allpixCellAdds t img i j y x = ghbase.strictCellAdds t img i j y x := by
      intro j _
      exact allpixCellAdds_eq_strict_of_inbounds t img i j y x
        (by omega) (by omega) (by omega) (by omega)
    rw [Finset.sum_congr rfl hconv]
    refine sum_Ico_extend _ _ _ _ _ (by omega) (by omega) ?_
    intro a _ _ hout
    exact strictCellAdds_far_x t img i a y x hoff (by omega)
  rw [Finset.sum_congr rfl (fun i _ => hinner i)]
  refine sum_Ico_extend _ _ _ _ _ (by omega) (by omega) ?_
  intro a _ _ hout
  refine Finset.sum_eq_zero ?_
  intro j _
  exact strictCellAdds_far_y t img a j y x hoff (by omega)

/-- C1 counterexample: the claim fails as stated.  The table built (at scale 1)
from the 10×10 template with a single feature pixel at (0,0) stores offset
(5,5); on a 20×20 scene whose only coded pixel is (1,1), accumulator location
(6,6) is more than `img_sz.width/2 = img_sz.height/2 = 5` from every scene
border, yet the strict transform (which never scans pixel (1,1)) leaves it 0
while the all-pixel transform (which does scan it) writes 1 there. -/
theorem C1_counterexample :
    ghbase.apply_ghough_transform exS20 (ghalgo.create_ghough_table exE10 fracOne) 6 6 = 0 ∧
    ghbase.apply_ghough_transform_allpix exS20 (ghalgo.create_ghough_table exE10 fracOne) 6 6 = 1 ∧
    (ghalgo.create_ghough_table exE10 fracOne).img_w / 2 < 6 ∧
    (ghalgo.create_ghough_table exE10 fracOne).img_h / 2 < 6 ∧
    6 + (ghalgo.create_ghough_table exE10 fracOne).img_w / 2 < exS20.cols - 1 ∧
    6 + (ghalgo.create_ghough_table exE10 fracOne).img_h / 2 < exS20.rows - 1 :=
  ⟨by decide, by decide, by decide, by decide, by decide, by decide⟩

/-- C1 (amended): for every lookup table whose stored offsets are bounded by
half its template extent (`|dx| ≤ img_sz.width/2`, `|dy| ≤ img_sz.height/2` —
as holds for every table `create_ghough_table` builds at scaleFactor ≤ 1) with
`img_sz ≥ 1×1`, and every scene orientation-code image, at every accumulator
location at least the FULL template extent (`img_sz.width` horizontally,
`img_sz.height` vertically — not half of it) away from every border of the
scene, the strict and the all-pixel stride-1 transforms produce identical
accumulator values. -/
theorem C1_border_policy_equiv_amended (img : Image) (t : ghbase.T_lookup_table)
    (hoff : ghalgo.offBounded t) (hw : 1 ≤ t.img_w) (hh : 1 ≤ t.img_h) (y x : Int)
    (hx1 : (t.img_w : Int) ≤ x) (hx2 : x ≤ (img.cols : Int) - 1 - (t.img_w : Int))
    (hy1 : (t.img_h : Int) ≤ y) (hy2 : y ≤ (img.rows : Int) - 1 - (t.img_h : Int)) :
    ghbase.apply_ghough_transform img t y x =
      ghbase.apply_ghough_transform_allpix img t y x :=
  (strict_acc_eq_full img t hoff hw hh y x hx1 hx2 hy1 hy2).trans
    (allpix_acc_eq_full img t hoff hw hh y x hx1 hx2 hy1 hy2).symm

/-- C1 witness: the amended statement instantiated at the table built from the
10×10 one-pixel template and a 22×22 scene, at interior location (11,11). -/
theorem C1_witness :
    ghbase.apply_ghough_transform exS22 (ghalgo.create_ghough_table exE10 fracOne) 11 11 =
      ghbase.apply_ghough_transform_allpix exS22 (ghalgo.create_ghough_table exE10 fracOne) 11 11 :=
  C1_border_policy_equiv_amended exS22 (ghalgo.create_ghough_table exE10 fracOne)
    (ghalgo.create_ghough_table_offBounded exE10 fracOne (by decide))
    (by decide) (by decide) 11 11 (by decide) (by decide) (by decide) (by decide)

/-! ### Self-match (C4) -/

namespace ghalgo

theorem sum_filter_key_of_sorted : ∀ {l : List (Pt × Nat)}, innerSorted l →
    ∀ {p : Pt} {v : Nat}, (p, v) ∈ l →
    ((l.filter (fun e => e.1 == p)).map (fun e => e.2)).sum = v := by
  intro l
  induction l with
  | nil =>
    intro _ p v hmem
    cases hmem
  | cons a t ih =>
    intro hs p v hmem
    obtain ⟨hq, ht⟩ := List.pairwise_cons.1 hs
    rcases List.mem_cons.1 hmem with he | he
    · have ha1 : a.1 = p := (congrArg Prod.fst he).symm
      have ha2 : a.2 = v := (congrArg Prod.snd he).symm
      rw [List.filter_cons, if_pos (by simp [ha1])]
      have htail : t.filter (fun e => e.1 == p) = [] := by
        rw [List.filter_eq_nil_iff]
        intro e he' hpe
        have hcmp := hq e he'
        have hep : e.1 = p := beq_iff_eq.1 hpe
        rw [ha1, hep, cmpCvPoint_irrefl] at hcmp
        exact Bool.noConfusion hcmp
      rw [htail]
      simp [ha2]
    · have hne : ¬ (a.1 == p) = true := by
        have hcmp := hq (p, v) he
        intro hh
        rw [beq_iff_eq.1 hh, cmpCvPoint_irrefl] at hcmp
        exact Bool.noConfusion hcmp
      rw [List.filter_cons, if_neg hne]
      exact ih ht he

theorem sum_filter_key_innerMapOf (s : List Pt) (p : Pt) :
    (((innerMapOf s).filter (fun e => e.1 == p)).map (fun e => e.2)).sum =
      s.count p % 65536 := by
  by_cases hp : p ∈ s
  · exact sum_filter_key_of_sorted (innerMapOf_sorted s)
      (mem_innerMapOf_iff.2 ⟨hp, rfl⟩)
  · have hcnt : s.count p = 0 := List.count_eq_zero.2 hp
    rw [hcnt]
    have hfil : (innerMapOf s).filter (fun e => e.1 == p) = [] := by
      rw [List.filter_eq_nil_iff]
      intro e he hpe
      have hin := (mem_innerMapOf_iff.1 he).1
      rw [beq_iff_eq.1 hpe] at hin
      exact hp hin
    rw [hfil]
    rfl

end ghalgo

theorem sum_grid_indicator_one (R C : Nat) (P : Int → Int → Prop) [∀ a b, Decidable (P a b)]
    (i j : Int) (hi1 : 0 ≤ i) (hi2 : i < (R : Int)) (hj1 : 0 ≤ j) (hj2 : j < (C : Int))
    (huniq : ∀ a b, P a b ↔ (a = i ∧ b = j)) :
    ((scanIdxs 0 (R : Int) 1).map (fun a =>
      ((scanIdxs 0 (C : Int) 1).map (fun b => if P a b then 1 else 0)).sum)).sum = 1 := by
  rw [sum_scanIdxs_one]
  have hin : ∀ a : Int,
      ((scanIdxs 0 (C : Int) 1).map (fun b => if P a b then (1 : Nat) else 0)).sum =
        if a = i then 1 else 0 := by
    intro a
    rw [sum_scanIdxs_one]
    by_cases ha : a = i
    · have hpt : ∀ b ∈ Finset.Ico (0 : Int) (C : Int),
          (if P a b then (1 : Nat) else 0) = if b = j then 1 else 0 := by
        intro b _
        by_cases hb : b = j
        · rw [if_pos ((huniq a b).2 ⟨ha, hb⟩), if_pos hb]
        · rw [if_neg (fun h => hb ((huniq a b).1 h).2), if_neg hb]
      rw [Finset.sum_congr rfl hpt,
        Finset.sum_ite_eq' (Finset.Ico (0 : Int) (C : Int)) j (fun _ => (1 : Nat)),
        if_pos (Finset.mem_Ico.2 ⟨hj1, hj2⟩), if_pos ha]
    · have hpt : ∀ b ∈ Finset.Ico (0 : Int) (C : Int),
          (if P a b then (1 : Nat) else 0) = 0 := by
        intro b _
        exact if_neg (fun h => ha ((huniq a b).1 h).1)
      rw [Finset.sum_congr rfl hpt, Finset.sum_const_zero, if_neg ha]
  rw [Finset.sum_congr rfl (fun a _ => hin a),
    Finset.sum_ite_eq' (Finset.Ico (0 : Int) (R : Int)) i (fun _ => (1 : Nat)),
    if_pos (Finset.mem_Ico.2 ⟨hi1, hi2⟩)]

theorem count_gmOffset_self (E : Image) (i j : Int)
    (hi1 : 0 ≤ i) (hi2 : i < (E.rows : Int)) (hj1 : 0 ≤ j) (hj2 : j < (E.cols : Int))
    (hc : E.pix i j ≠ 0) :
    (ghalgo.codeOffsets (ghalgo.streamGM E fracOne) (E.pix i j)).count
      (Pt.mk (((E.cols / 2 : Nat) : Int) - j) (((E.rows / 2 : Nat) : Int) - i)) = 1 := by
  rw [ghalgo.count_codeOffsets_eq_countP]
  unfold ghalgo.streamGM
  rw [List.countP_map, ghalgo.countP_pixStream]
  refine sum_grid_indicator_one E.rows E.cols _ i j hi1 hi2 hj1 hj2 ?_
  intro a b
  constructor
  · rintro ⟨-, hq⟩
    simp only [Function.comp_apply, Bool.and_eq_true, beq_iff_eq] at hq
    obtain ⟨hoff, -⟩ := hq
    unfold ghalgo.gmOffset at hoff
    rw [scaleTrunc_fracOne, scaleTrunc_fracOne] at hoff
    have hx := congrArg Pt.x hoff
    have hy := congrArg Pt.y hoff
    simp only at hx hy
    exact ⟨by omega, by omega⟩
  · rintro ⟨rfl, rfl⟩
    refine ⟨hc, ?_⟩
    simp only [Function.comp_apply, Bool.and_eq_true, beq_iff_eq, and_true]
    unfold ghalgo.gmOffset
    rw [scaleTrunc_fracOne, scaleTrunc_fracOne]

theorem allpix_ref_cellAdds (E : Image) (i j : Int)
    (hi1 : 1 ≤ i) (hi2 : i < (E.rows : Int) - 1) (hj1 : 1 ≤ j) (hj2 : j < (E.cols : Int) - 1) :
    ghbase.allpixCellAdds (ghalgo.create_ghough_table E fracOne) E i j
      ((E.rows / 2 : Nat) : Int) ((E.cols / 2 : Nat) : Int) =
      if E.pix i j = 0 then 0 else 1 := by
  unfold ghbase.allpixCellAdds
  have hfilt :
      (ghbase.entriesAt (ghalgo.create_ghough_table E fracOne) (E.pix i j)).filter
        (fun e => decide (0 ≤ j + e.1.x) && decide (j + e.1.x < (E.cols : Int)) &&
                  decide (0 ≤ i + e.1.y) && decide (i + e.1.y < (E.rows : Int)) &&
                  decide (i + e.1.y = ((E.rows / 2 : Nat) : Int)) &&
                  decide (j + e.1.x = ((E.cols / 2 : Nat) : Int))) =
      (ghbase.entriesAt (ghalgo.create_ghough_table E fracOne) (E.pix i j)).filter
        (fun e => e.1 == Pt.mk (((E.cols / 2 : Nat) : Int) - j)
          (((E.rows / 2 : Nat) : Int) - i)) := by
    refine List.filter_congr ?_
    intro e _
    refine Bool.eq_iff_iff.mpr ?_
    rcases e with ⟨⟨ex, ey⟩, w⟩
    simp only [Bool.and_eq_true, decide_eq_true_eq, beq_iff_eq, Pt.mk.injEq]
    constructor
    · intro h
      omega
    · intro h
      omega
  rw [hfilt]
  by_cases hz : E.pix i j = 0
  · rw [if_pos hz, hz]
    have h0 : ghbase.entriesAt (ghalgo.create_ghough_table E fracOne) 0 = [] := by
      unfold ghalgo.create_ghough_table
      rw [ghalgo.entriesAt_tableOfStream, if_pos (Nat.succ_pos _)]
      have hfe : (ghalgo.streamGM E (clampScale fracOne)).filter
          (fun e => e.1 == 0) = [] := by
        rw [List.filter_eq_nil_iff]
        intro e he hpe
        unfold ghalgo.streamGM at he
        rcases List.mem_map.1 he with ⟨e', he', rfl⟩
        have hnz := (ghalgo.mem_pixStream he').2.2.2.2.2
        exact hnz (by simpa using hpe)
      unfold ghalgo.codeOffsets
      rw [hfe]
      rfl
    rw [h0]
    rfl
  · rw [if_neg hz]
    have hmem : (E.pix i j,
        Pt.mk (((E.cols / 2 : Nat) : Int) - j) (((E.rows / 2 : Nat) : Int) - i)) ∈
        ghalgo.streamGM E fracOne := by
      unfold ghalgo.streamGM
      refine List.mem_map.2 ⟨(E.pix i j, i, j), ?_, ?_⟩
      · unfold ghalgo.pixStream
        refine List.mem_flatMap.2 ⟨i, mem_scanIdxs_one.2 ⟨by omega, by omega⟩, ?_⟩
        refine List.mem_flatMap.2 ⟨j, mem_scanIdxs_one.2 ⟨by omega, by omega⟩, ?_⟩
        rw [if_pos hz]
        exact List.mem_singleton.2 rfl
      · show (E.pix i j, ghalgo.gmOffset E fracOne i j) = _
        unfold ghalgo.gmOffset
        rw [scaleTrunc_fracOne, scaleTrunc_fracOne]
    have hlt : E.pix i j < ghalgo.maxCodeOf (ghalgo.streamGM E fracOne) + 1 := by
      have := ghalgo.maxCodeOf_ge hmem
      omega
    unfold ghalgo.create_ghough_table
    rw [clampScale_fracOne, ghalgo.entriesAt_tableOfStream, if_pos hlt,
      ghalgo.sum_filter_key_innerMapOf,
      count_gmOffset_self E i j (by omega) (by omega) (by omega) (by omega) hz]

theorem allpix_le_tableTotal (img : Image) (t : ghbase.T_lookup_table) (y x : Int) :
    ghbase.apply_ghough_transform_allpix img t y x ≤ ghbase.tableTotal t := by
  unfold ghbase.apply_ghough_transform_allpix ghbase.allpixScanRows ghbase.allpixScanCols
  refine le_trans ?_ (acc_le_tableTotal_gen img t y x
    (scanIdxs 1 ((img.rows : Int) - 1) 1) (scanIdxs 1 ((img.cols : Int) - 1) 1)
    (scanIdxs_nodup _ _ 1 (by decide)) (scanIdxs_nodup _ _ 1 (by decide)))
  refine sum_map_le_sum_map _ _ _ ?_
  intro i _
  refine sum_map_le_sum_map _ _ _ ?_
  intro j _
  exact allpixCellAdds_le_strict t img i j y x

theorem borderFree_pix_zero {E : Image} (hbf : ghalgo.borderFree E = true)
    {a b : Int} (ha1 : 0 ≤ a) (ha2 : a < (E.rows : Int)) (hb1 : 0 ≤ b) (hb2 : b < (E.cols : Int))
    (hout : a < 1 ∨ (E.rows : Int) - 1 ≤ a ∨ b < 1 ∨ (E.cols : Int) - 1 ≤ b) :
    E.pix a b = 0 := by
  unfold ghalgo.borderFree at hbf
  rw [List.all_eq_true] at hbf
  have h1 := hbf a (mem_scanIdxs_one.2 ⟨ha1, ha2⟩)
  rw [List.all_eq_true] at h1
  have h2 := h1 b (mem_scanIdxs_one.2 ⟨hb1, hb2⟩)
  simp only [Bool.or_eq_true, Bool.and_eq_true, decide_eq_true_eq, beq_iff_eq] at h2
  rcases h2 with hz | hin
  · exact hz
  · omega

theorem countNonzero_eq_grid_sum (E : Image) :
    ghalgo.countNonzero E =
      ∑ a in Finset.Ico (0 : Int) (E.rows : Int),
        ∑ b in Finset.Ico (0 : Int) (E.cols : Int),
          (if E.pix a b = 0 then 0 else 1) := by
  unfold ghalgo.countNonzero ghalgo.pixStream
  rw [List.length_flatMap, sum_scanIdxs_one]
  refine Finset.sum_congr rfl ?_
  intro a _
  simp only [Function.comp_apply]
  rw [List.length_flatMap, sum_scanIdxs_one]
  refine Finset.sum_congr rfl ?_
  intro b _
  simp only [Function.comp_apply]
  by_cases h : E.pix a b ≠ 0
  · rw [if_pos h, if_neg h]
    rfl
  · rw [if_neg h, if_pos (not_not.1 h)]
    rfl

theorem allpix_self_ref (E : Image) (hbf : ghalgo.borderFree E = true) :
    ghbase.apply_ghough_transform_allpix E (ghalgo.create_ghough_table E fracOne)
      ((E.rows / 2 : Nat) : Int) ((E.cols / 2 : Nat) : Int) =
      ghbase.tableTotal (ghalgo.create_ghough_table E fracOne) := by
  have htot : ghbase.tableTotal (ghalgo.create_ghough_table E fracOne) =
      ghalgo.countNonzero E := by
    unfold ghalgo.create_ghough_table
    rw [ghalgo.tableTotal_tableOfStream _ _ _
      (fun c p => ghalgo.bucket_count_lt_wrap E fracOne c p)]
    exact ghalgo.streamGM_length E (clampScale fracOne)
  rw [htot, countNonzero_eq_grid_sum]
  unfold ghbase.apply_ghough_transform_allpix ghbase.allpixScanRows ghbase.allpixScanCols
  rw [sum_scanIdxs_one]
  have hstep1 : ∀ a ∈ Finset.Ico (1 : Int) ((E.rows : Int) - 1),
      ((scanIdxs 1 ((E.cols : Int) - 1) 1).map (fun b =>
        ghbase.allpixCellAdds (ghalgo.create_ghough_table E fracOne) E a b
          ((E.rows / 2 : Nat) : Int) ((E.cols / 2 : Nat) : Int))).sum =
      ∑ b in Finset.Ico (0 : Int) (E.cols : Int), (if E.pix a b = 0 then 0 else 1) := by
    intro a ha
    rw [Finset.mem_Ico] at ha
    rw [sum_scanIdxs_one]
    have hcell : ∀ b ∈ Finset.Ico (1 : Int) ((E.cols : Int) - 1),
        ghbase.allpixCellAdds (ghalgo.create_ghough_table E fracOne) E a b
          ((E.rows / 2 : Nat) : Int) ((E.cols / 2 : Nat) : Int) =
        if E.pix a b = 0 then 0 else 1 := by
      intro b hb
      rw [Finset.mem_Ico] at hb
      exact allpix_ref_cellAdds E a b ha.1 ha.2 hb.1 hb.2
    rw [Finset.sum_congr rfl hcell]
    refine sum_Ico_extend _ _ _ _ _ (by omega) (by omega) ?_
    intro b hb1 hb2 hbout
    rw [if_pos (borderFree_pix_zero hbf (by omega) (by omega) hb1 hb2 (by omega))]
  rw [Finset.sum_congr rfl hstep1]
  refine sum_Ico_extend _ _ _ _ _ (by omega) (by omega) ?_
  intro a ha1 ha2 haout
  refine Finset.sum_eq_zero ?_
  intro b hb
  rw [Finset.mem_Ico] at hb
  rw [if_pos (borderFree_pix_zero hbf ha1 ha2 hb.1 hb.2 (by omega))]

/-- C4 counterexample: the claim fails as stated.  Building the table from the
4×4 template with a single feature pixel at (0,0) (total vote weight 1) and
voting on the template itself yields an accumulator value 0 — not the table's
total weight 1 — at the reference point (2,2), under BOTH border policies: the
strict scan region `[2, 4-2)` is empty, and the all-pixel scan `[1, 3)` never
visits the border feature pixel (0,0). -/
theorem C4_counterexample :
    ghbase.tableTotal (ghalgo.create_ghough_table exE4 fracOne) = 1 ∧
    ghbase.apply_ghough_transform exE4 (ghalgo.create_ghough_table exE4 fracOne) 2 2 = 0 ∧
    ghbase.apply_ghough_transform_allpix exE4 (ghalgo.create_ghough_table exE4 fracOne) 2 2 = 0 :=
  ⟨by decide, by decide, by decide⟩

/-- C4 (amended): for every encoded template image all of whose nonzero-code
pixels lie strictly inside its 1-pixel border margin, building the table from
the template with scaleFactor = 1 and voting on the template itself at stride 1
with the ALL-PIXEL border policy yields an accumulator whose value at the
reference point (height/2, width/2) equals the table's total vote weight
(`max_votes`) and is a global maximum: every accumulator cell is ≤ the
reference-point value.  (Dropped: the strict policy — its scan region on a
scene exactly the template's size is empty or near-empty, missing the feature
pixels — and templates with feature pixels on the border margin, which neither
policy's scan ever visits.) -/
theorem C4_self_match_amended (E : Image) (hbf : ghalgo.borderFree E = true) :
    ghbase.apply_ghough_transform_allpix E (ghalgo.create_ghough_table E fracOne)
        ((E.rows / 2 : Nat) : Int) ((E.cols / 2 : Nat) : Int) =
      ghbase.tableTotal (ghalgo.create_ghough_table E fracOne) ∧
    ∀ y x : Int,
      ghbase.apply_ghough_transform_allpix E (ghalgo.create_ghough_table E fracOne) y x ≤
        ghbase.apply_ghough_transform_allpix E (ghalgo.create_ghough_table E fracOne)
          ((E.rows / 2 : Nat) : Int) ((E.cols / 2 : Nat) : Int) := by
  have href := allpix_self_ref E hbf
  refine ⟨href, ?_⟩
  intro y x
  rw [href]
  exact allpix_le_tableTotal E _ y x

/-- C4 witness: the amended statement instantiated at the 6×6 template whose
two feature pixels are strictly interior. -/
theorem C4_witness :
    ghbase.apply_ghough_transform_allpix exE6 (ghalgo.create_ghough_table exE6 fracOne)
        ((exE6.rows / 2 : Nat) : Int) ((exE6.cols / 2 : Nat) : Int) =
      ghbase.tableTotal (ghalgo.create_ghough_table exE6 fracOne) ∧
    ∀ y x : Int,
      ghbase.apply_ghough_transform_allpix exE6 (ghalgo.create_ghough_table exE6 fracOne) y x ≤
        ghbase.apply_ghough_transform_allpix exE6 (ghalgo.create_ghough_table exE6 fracOne)
          ((exE6.rows / 2 : Nat) : Int) ((exE6.cols / 2 : Nat) : Int) :=
  C4_self_match_amended exE6 (by decide)

/-! ### Built-table ordering invariant (C10) -/

/-- C10: in every table produced by `create_ghough_table`, each code's vote
list is strictly increasing in the `cmpCvPoint` order (by x, then by y for
equal x) — hence its offsets are pairwise distinct — every stored weight is at
least 1, and the table depends only on the multiset of (code, offset) pairs of
the template, not on the pixel scan order: flattening any permutation of the
build stream produces the identical table. -/
theorem C10_table_invariants (E : Image) (scale : Frac) (c : Nat)
    (s' : List (Nat × Pt))
    (hperm : s'.Perm (ghalgo.streamGM E (clampScale scale))) :
    ghalgo.innerSorted (ghbase.entriesAt (ghalgo.create_ghough_table E scale) c) ∧
    (ghalgo.keysOf (ghbase.entriesAt (ghalgo.create_ghough_table E scale) c)).Nodup ∧
    (∀ e ∈ ghbase.entriesAt (ghalgo.create_ghough_table E scale) c, 1 ≤ e.2) ∧
    ghalgo.tableOfStream E.cols E.rows s' = ghalgo.create_ghough_table E scale := by
  have hsort : ghalgo.innerSorted (ghbase.entriesAt (ghalgo.create_ghough_table E scale) c) := by
    unfold ghalgo.create_ghough_table
    rw [ghalgo.entriesAt_tableOfStream]
    by_cases hc : c < ghalgo.maxCodeOf (ghalgo.streamGM E (clampScale scale)) + 1
    · rw [if_pos hc]
      exact ghalgo.innerMapOf_sorted _
    · rw [if_neg hc]
      exact List.Pairwise.nil
  refine ⟨hsort, ghalgo.keysOf_nodup hsort, ?_, ?_⟩
  · intro e he
    unfold ghalgo.create_ghough_table at he
    rw [ghalgo.entriesAt_tableOfStream] at he
    by_cases hc : c < ghalgo.maxCodeOf (ghalgo.streamGM E (clampScale scale)) + 1
    · rw [if_pos hc] at he
      obtain ⟨hmem, hval⟩ := ghalgo.mem_innerMapOf_iff.1 he
      have hpos : 0 < (ghalgo.codeOffsets (ghalgo.streamGM E (clampScale scale)) c).count e.1 :=
        List.count_pos_iff.2 hmem
      have hlt := ghalgo.bucket_count_lt_wrap E scale c e.1
      rw [hval, Nat.mod_eq_of_lt hlt]
      omega
    · rw [if_neg hc] at he
      cases he
  · have hmax : ghalgo.maxCodeOf s' =
        ghalgo.maxCodeOf (ghalgo.streamGM E (clampScale scale)) := by
      unfold ghalgo.maxCodeOf
      exact @List.Perm.foldl_eq _ _ (fun m e => max m e.1) s'
        (ghalgo.streamGM E (clampScale scale)) ⟨fun b a1 a2 => by omega⟩ hperm 0
    have hco : ∀ c0 : Nat, ∀ p : Pt,
        (ghalgo.codeOffsets s' c0).count p =
        (ghalgo.codeOffsets (ghalgo.streamGM E (clampScale scale)) c0).count p := by
      intro c0 p
      unfold ghalgo.codeOffsets
      exact ((hperm.filter _).map _).count_eq p
    unfold ghalgo.create_ghough_table ghalgo.tableOfStream
    rw [hmax]
    have helems :
        (List.range (ghalgo.maxCodeOf (ghalgo.streamGM E (clampScale scale)) + 1)).map
          (fun c0 => ghalgo.innerMapOf (ghalgo.codeOffsets s' c0)) =
        (List.range (ghalgo.maxCodeOf (ghalgo.streamGM E (clampScale scale)) + 1)).map
          (fun c0 => ghalgo.innerMapOf
            (ghalgo.codeOffsets (ghalgo.streamGM E (clampScale scale)) c0)) :=
      List.map_congr_left (fun c0 _ => ghalgo.innerMapOf_count_congr (fun p => hco c0 p))
    rw [helems]

/-- C10 witness: the invariants instantiated at the 6×6 two-pixel template,
code 2, with the build stream reversed. -/
theorem C10_witness :
    ghalgo.innerSorted (ghbase.entriesAt (ghalgo.create_ghough_table exE6 fracOne) 2) ∧
    (ghalgo.keysOf (ghbase.entriesAt (ghalgo.create_ghough_table exE6 fracOne) 2)).Nodup ∧
    (∀ e ∈ ghbase.entriesAt (ghalgo.create_ghough_table exE6 fracOne) 2, 1 ≤ e.2) ∧
    ghalgo.tableOfStream exE6.cols exE6.rows [(3, Pt.mk 0 1), (2, Pt.mk 2 2)] =
      ghalgo.create_ghough_table exE6 fracOne :=
  C10_table_invariants exE6 fracOne 2 [(3, Pt.mk 0 1), (2, Pt.mk 2 2)] (by decide)
